import Mathlib

/-!
Verification of the lenient JSON extraction pipeline in src/parseJSON.ts.

The embedding works on `List Char` under the `String` wrappers, mirroring the
source functions character for character.  JavaScript-specific primitives are
modelled explicitly: `jsWs` is the JavaScript whitespace class used by
`String.prototype.trim` and the regex class `\s`; the two regular-expression
passes of `normalizeToJSON` are rendered as left-to-right scanners with the
exact leftmost-match, continue-after-match semantics of a global
`String.prototype.replace`; the external strict JSON decoder (`JSON.parse`)
is modelled from the spec, see `decode` below.
-/

namespace PJson

/-- The single-quote character, written by code point to keep source text plain. -/
def sqc : Char := Char.ofNat 39

/-- The double-quote character. -/
def dqc : Char := Char.ofNat 34

/-- The backslash character. -/
def bsc : Char := Char.ofNat 92

/-- JavaScript whitespace: the character class matched by the regex `\s` and
trimmed by `String.prototype.trim` and `trimStart` (ECMA-262 WhiteSpace plus
LineTerminator). -/
def jsWs (c : Char) : Bool :=
  c = ' ' || c = Char.ofNat 9 || c = Char.ofNat 10 || c = Char.ofNat 11 ||
  c = Char.ofNat 12 || c = Char.ofNat 13 ||
  c = Char.ofNat 0xA0 || c = Char.ofNat 0x1680 ||
  (0x2000 ≤ c.toNat && c.toNat ≤ 0x200A) ||
  c = Char.ofNat 0x2028 || c = Char.ofNat 0x2029 || c = Char.ofNat 0x202F ||
  c = Char.ofNat 0x205F || c = Char.ofNat 0x3000 || c = Char.ofNat 0xFEFF

/-- JSON whitespace (RFC 8259): space, tab, line feed, carriage return. -/
def jsonWs (c : Char) : Bool :=
  c = ' ' || c = Char.ofNat 9 || c = Char.ofNat 10 || c = Char.ofNat 13

/-- Model of JavaScript `String.prototype.trimStart`. -/
def jsTrimStart (s : String) : String := String.mk (s.data.dropWhile jsWs)

/-- Model of JavaScript `String.prototype.trimEnd`. -/
def jsTrimEnd (s : String) : String := String.mk ((s.data.reverse.dropWhile jsWs).reverse)

/-- Model of JavaScript `String.prototype.trim` (both ends). -/
def jsTrim (s : String) : String := jsTrimEnd (jsTrimStart s)

/-- The decoded JSON value tree (source type `JSONValue`).  Numbers are
modelled as exact rationals; objects are insertion-ordered association
lists. -/
inductive JSONValue where
  | str (s : String)
  | num (q : Rat)
  | bool (b : Bool)
  | null
  | arr (items : List JSONValue)
  | obj (entries : List (String × JSONValue))

/-- The `/^-?\d/` test from `looksLikeJSON`: an optional minus sign followed
by a decimal digit at the start of the string. -/
def negDigitTest (t : String) : Bool :=
  match t.data with
  | c₁ :: c₂ :: _ => if c₁ = '-' then c₂.isDigit else c₁.isDigit
  | c₁ :: _ => c₁.isDigit
  | [] => false

/-- Source `looksLikeJSON` (src/parseJSON.ts lines 18-22): trim the start,
then test for a leading brace, bracket or quote, exact equality with the
three literals, or the `-?digit` pattern. -/
def looksLikeJSON (s : String) : Bool :=
  let t := jsTrimStart s
  ['{'].isPrefixOf t.data || ['['].isPrefixOf t.data || [dqc].isPrefixOf t.data ||
  t == "true" || t == "false" || t == "null" || negDigitTest t

/-- States of the quote-normalization scan in `normalizeToJSON`
(lines 35-90): outside any string, inside a single-quoted run, inside a
double-quoted run. -/
inductive NMode where
  | normal
  | single
  | double

/-- The character scan of `normalizeToJSON` (lines 35-90), rendered as a
state machine over the character list.  Single-quoted runs are re-emitted
double-quoted (unescaping backslash-quote pairs, escaping bare double
quotes); double-quoted runs are copied verbatim. -/
def normScanM : NMode → List Char → List Char
  | _, [] => []
  | .normal, c :: rest =>
    if c = sqc then dqc :: normScanM .single rest
    else if c = dqc then dqc :: normScanM .double rest
    else c :: normScanM .normal rest
  | .single, c :: rest =>
    if c = bsc then
      match rest with
      | [] => [bsc]
      | n :: rest2 =>
        if n = sqc then sqc :: normScanM .single rest2
        else if n = dqc then bsc :: dqc :: normScanM .single rest2
        else bsc :: n :: normScanM .single rest2
    else if c = dqc then bsc :: dqc :: normScanM .single rest
    else if c = sqc then dqc :: normScanM .normal rest
    else c :: normScanM .single rest
  | .double, c :: rest =>
    if c = bsc then
      match rest with
      | [] => [bsc]
      | n :: rest2 => bsc :: n :: normScanM .double rest2
    else if c = dqc then dqc :: normScanM .normal rest
    else c :: normScanM .double rest

/-- First character of an identifier per the key-quoting regex class
`[A-Za-z_$]`. -/
def isIdentStart (c : Char) : Bool := c.isAlpha || c = '_' || c = '$'

/-- Continuation character of an identifier per the class `[A-Za-z0-9_$]`. -/
def isIdentChar (c : Char) : Bool := c.isAlphanum || c = '_' || c = '$'

/-- Attempt to match the tail of the key-quoting regex
`([{,]\s*)([A-Za-z_$][A-Za-z0-9_$]*)(\s*:)` right after a `{` or `,`:
greedy whitespace, one identifier, greedy whitespace, then a colon.
Returns the three captured pieces and the remainder after the colon. -/
def tryKeyMatch (l : List Char) : Option (List Char × List Char × List Char × List Char) :=
  let ws1 := l.takeWhile jsWs
  let r1 := l.dropWhile jsWs
  match r1 with
  | [] => none
  | c :: r1t =>
    if isIdentStart c then
      let identT := r1t.takeWhile isIdentChar
      let r2 := r1t.dropWhile isIdentChar
      let ws2 := r2.takeWhile jsWs
      let r3 := r2.dropWhile jsWs
      match r3 with
      | ':' :: r4 => some (ws1, c :: identT, ws2, r4)
      | _ => none
    else none

/-- The global replace
`out.replace(/([{,]\s*)([A-Za-z_$][A-Za-z0-9_$]*)(\s*:)/g, ...)` (line 93):
scan left to right, attempt a match at every `{` or `,`, wrap the matched
identifier in double quotes, and resume after the matched colon.  The fuel
argument bounds the number of scan steps; `quoteKeys` supplies the list
length, which suffices because every step consumes at least one character. -/
def quoteKeysAux : Nat → List Char → List Char
  | 0, l => l
  | _ + 1, [] => []
  | fuel + 1, c :: rest =>
    if c = '{' ∨ c = ',' then
      match tryKeyMatch rest with
      | some (ws1, ident, ws2, r) =>
        c :: (ws1 ++ dqc :: (ident ++ dqc :: (ws2 ++ ':' :: quoteKeysAux fuel r)))
      | none => c :: quoteKeysAux fuel rest
    else c :: quoteKeysAux fuel rest

/-- Key-quoting pass at adequate fuel. -/
def quoteKeys (l : List Char) : List Char := quoteKeysAux l.length l

/-- The global replace `out.replace(/,(\s*[}\]])/g, "$1")` (line 96): delete
any comma followed by optional whitespace and a closing brace or bracket,
resuming after the match. -/
def removeTrailingAux : Nat → List Char → List Char
  | 0, l => l
  | _ + 1, [] => []
  | fuel + 1, c :: rest =>
    if c = ',' then
      match rest.dropWhile jsWs with
      | b :: r2 =>
        if b = '}' ∨ b = ']' then rest.takeWhile jsWs ++ b :: removeTrailingAux fuel r2
        else c :: removeTrailingAux fuel rest
      | [] => c :: removeTrailingAux fuel rest
    else c :: removeTrailingAux fuel rest

/-- Trailing-comma removal at adequate fuel. -/
def removeTrailing (l : List Char) : List Char := removeTrailingAux l.length l

/-- Source `normalizeToJSON` (lines 30-99): the quote/escape scan followed by
the two structural regex passes, key quoting then trailing-comma removal. -/
def normalizeToJSON (raw : String) : String :=
  String.mk (removeTrailing (quoteKeys (normScanM .normal raw.data)))

/-- The scanning loop of `extractBalanced` (lines 111-129) over the
characters from the start position, carrying the depth counter, the
inside-string flag and the one-character escape flag.  Returns the prefix
up to and including the closing delimiter at which the depth counter first
returns to zero, or `none` if the scan exhausts the text. -/
def ebAux (op cl : Char) : List Char → Int → Bool → Bool → Option (List Char)
  | [], _, _, _ => none
  | ch :: rest, depth, inStr, esc =>
    if esc then (ebAux op cl rest depth inStr false).map (ch :: ·)
    else if ch = bsc then (ebAux op cl rest depth inStr true).map (ch :: ·)
    else if ch = dqc then (ebAux op cl rest depth (!inStr) esc).map (ch :: ·)
    else if inStr then (ebAux op cl rest depth inStr esc).map (ch :: ·)
    else if ch = op then (ebAux op cl rest (depth + 1) inStr esc).map (ch :: ·)
    else if ch = cl then
      if depth - 1 = 0 then some [ch]
      else (ebAux op cl rest (depth - 1) inStr esc).map (ch :: ·)
    else (ebAux op cl rest depth inStr esc).map (ch :: ·)

/-- Source `extractBalanced` (lines 105-131): the balanced block of `text`
beginning at index `start`, delimiters `op`/`cl`, or `none` when the scan
reaches the end of text with the depth never returning to zero. -/
def extractBalanced (text : String) (start : Nat) (op cl : Char) : Option String :=
  (ebAux op cl (text.data.drop start) 0 false false).map String.mk

/-!
## The strict JSON decoder

Modelled from the spec: the strict JSON decoder called as `JSON.parse` in the
source is an external collaborator this repository does not contain; §6 of
the spec describes it as "a strict JSON decoder that accepts well-formed JSON
text and returns a decoded Value tree, raising a structured parse error on
malformed input".  The model below follows the JSON grammar of RFC 8259 with
JavaScript object semantics for duplicate keys (last write wins, position of
the first write kept).  Numbers are read as exact rationals.  A raised parse
error is the `Except.error` branch.
-/

/-- Hexadecimal digit value, for string escapes of the form backslash-u. -/
def hexVal (c : Char) : Option Nat :=
  if c.isDigit then some (c.toNat - 48)
  else if 'a' ≤ c ∧ c ≤ 'f' then some (c.toNat - 87)
  else if 'A' ≤ c ∧ c ≤ 'F' then some (c.toNat - 55)
  else none

/-- Body of a JSON string after the opening quote: accumulate characters
until the closing quote, decoding the escape sequences the JSON grammar
permits, refusing raw control characters.  Returns the string and the
remaining text. -/
def strBody (acc : List Char) : List Char → Except String (String × List Char)
  | [] => .error "unterminated string"
  | c :: rest =>
    if c = dqc then .ok (String.mk acc.reverse, rest)
    else if c = bsc then
      match rest with
      | [] => .error "bad escape"
      | e :: rest2 =>
        if e = dqc then strBody (dqc :: acc) rest2
        else if e = bsc then strBody (bsc :: acc) rest2
        else if e = '/' then strBody ('/' :: acc) rest2
        else if e = 'b' then strBody (Char.ofNat 8 :: acc) rest2
        else if e = 'f' then strBody (Char.ofNat 12 :: acc) rest2
        else if e = 'n' then strBody (Char.ofNat 10 :: acc) rest2
        else if e = 'r' then strBody (Char.ofNat 13 :: acc) rest2
        else if e = 't' then strBody (Char.ofNat 9 :: acc) rest2
        else if e = 'u' then
          match rest2 with
          | h1 :: h2 :: h3 :: h4 :: rest3 =>
            match hexVal h1, hexVal h2, hexVal h3, hexVal h4 with
            | some a, some b, some c4, some d =>
              strBody (Char.ofNat (((a * 16 + b) * 16 + c4) * 16 + d) :: acc) rest3
            | _, _, _, _ => .error "bad unicode escape"
          | _ => .error "bad unicode escape"
        else .error "bad escape"
    else if c.toNat < 32 then .error "control character in string"
    else strBody (c :: acc) rest

/-- Numeric value of a list of decimal digits. -/
def digitsToNat (l : List Char) : Nat := l.foldl (fun n c => n * 10 + (c.toNat - 48)) 0

/-- A JSON number per the RFC 8259 grammar: optional minus, integer part
with no leading zero, optional fraction, optional exponent.  The value is
the exact rational the token denotes. -/
def numToken (l : List Char) : Except String (JSONValue × List Char) :=
  let sl : Int × List Char := match l with
    | c :: r => if c = '-' then (-1, r) else (1, l)
    | [] => (1, l)
  match sl.2 with
  | [] => .error "bad number"
  | d :: _ =>
    if d.isDigit then
      let l1 := sl.2
      let intDigits := l1.takeWhile Char.isDigit
      let r1 := l1.dropWhile Char.isDigit
      if 1 < intDigits.length ∧ intDigits.head? = some '0' then .error "leading zero"
      else
        match r1 with
        | '.' :: rr =>
          if (rr.takeWhile Char.isDigit).isEmpty then .error "bad fraction"
          else numTail sl.1 intDigits (rr.takeWhile Char.isDigit) (rr.dropWhile Char.isDigit)
        | _ => numTail sl.1 intDigits [] r1
    else .error "bad number"
where
  /-- Read the optional exponent and assemble the rational value. -/
  numTail (sign : Int) (intDigits fracDigits : List Char) (r2 : List Char) :
      Except String (JSONValue × List Char) :=
    let ex : Option (Int × List Char) := match r2 with
      | e :: rr =>
        if e = 'e' ∨ e = 'E' then
          let sr : Int × List Char := match rr with
            | s2 :: rr3 => if s2 = '+' then (1, rr3) else if s2 = '-' then (-1, rr3) else (1, rr)
            | [] => (1, rr)
          let eds := sr.2.takeWhile Char.isDigit
          if eds.isEmpty then none
          else some (sr.1 * (digitsToNat eds : Int), sr.2.dropWhile Char.isDigit)
        else some (0, r2)
      | [] => some (0, r2)
    match ex with
    | none => .error "bad exponent"
    | some (e, rest) =>
      let mant : Int := sign * (digitsToNat (intDigits ++ fracDigits) : Int)
      let scale : Int := e - fracDigits.length
      let q : Rat :=
        if 0 ≤ scale then ((mant * 10 ^ scale.toNat : Int) : Rat)
        else (mant : Rat) / ((10 ^ (-scale).toNat : Int) : Rat)
      .ok (.num q, rest)

/-- Skip JSON whitespace. -/
def skipWs (l : List Char) : List Char := l.dropWhile jsonWs

/-- JavaScript object write `obj[k] = v`: overwrite in place if the key
exists, else append, preserving insertion order. -/
def insertEntry (es : List (String × JSONValue)) (k : String) (v : JSONValue) :
    List (String × JSONValue) :=
  if es.any (fun e => e.1 == k) then es.map (fun e => if e.1 == k then (e.1, v) else e)
  else es ++ [(k, v)]

mutual

/-- One JSON value, after optional leading whitespace.  The fuel argument
bounds recursion depth; `decode` supplies more fuel than any input can
consume. -/
def parseValue : Nat → List Char → Except String (JSONValue × List Char)
  | 0, _ => .error "out of fuel"
  | fuel + 1, l =>
    match skipWs l with
    | [] => .error "unexpected end of input"
    | c :: rest =>
      if c = '{' then
        match skipWs rest with
        | '}' :: r => .ok (.obj [], r)
        | r => (parseMembers fuel r []).map (fun p => (.obj p.1, p.2))
      else if c = '[' then
        match skipWs rest with
        | ']' :: r => .ok (.arr [], r)
        | r => (parseElements fuel r).map (fun p => (.arr p.1, p.2))
      else if c = dqc then (strBody [] rest).map (fun p => (.str p.1, p.2))
      else if c = 't' then
        match rest with
        | 'r' :: 'u' :: 'e' :: r => .ok (.bool true, r)
        | _ => .error "bad literal"
      else if c = 'f' then
        match rest with
        | 'a' :: 'l' :: 's' :: 'e' :: r => .ok (.bool false, r)
        | _ => .error "bad literal"
      else if c = 'n' then
        match rest with
        | 'u' :: 'l' :: 'l' :: r => .ok (.null, r)
        | _ => .error "bad literal"
      else if c = '-' ∨ c.isDigit then numToken (c :: rest)
      else .error "unexpected character"

/-- Members of an object after the opening brace (first key expected),
threading the accumulated entries. -/
def parseMembers : Nat → List Char → List (String × JSONValue) →
    Except String (List (String × JSONValue) × List Char)
  | 0, _, _ => .error "out of fuel"
  | fuel + 1, l, acc =>
    match skipWs l with
    | c :: r =>
      if c = dqc then
        match strBody [] r with
        | .error e => .error e
        | .ok (k, r1) =>
          match skipWs r1 with
          | ':' :: r2 =>
            match parseValue fuel r2 with
            | .error e => .error e
            | .ok (v, r3) =>
              match skipWs r3 with
              | ',' :: r4 => parseMembers fuel r4 (insertEntry acc k v)
              | '}' :: r4 => .ok (insertEntry acc k v, r4)
              | _ => .error "expected comma or closing brace"
          | _ => .error "expected colon"
      else .error "expected key"
    | [] => .error "unexpected end of object"

/-- Elements of an array after the opening bracket (first element
expected). -/
def parseElements : Nat → List Char → Except String (List JSONValue × List Char)
  | 0, _ => .error "out of fuel"
  | fuel + 1, l =>
    match parseValue fuel l with
    | .error e => .error e
    | .ok (v, r) =>
      match skipWs r with
      | ',' :: r2 => (parseElements fuel r2).map (fun p => (v :: p.1, p.2))
      | ']' :: r2 => .ok ([v], r2)
      | _ => .error "expected comma or closing bracket"

end

/-- Modelled from the spec: the external strict JSON decoder (`JSON.parse`).
A complete JSON text is one value with only whitespace around it; anything
else raises, which the model signals as `Except.error`.  The fuel bounds the
recursion depth of the parser; twice the trimmed length plus two always
suffices, because leading whitespace is skipped inside the first call
without recursion, trailing text is checked outside the recursion, and each
further recursive call advances past at least one non-blank character of
the trimmed text. -/
def decode (s : String) : Except String JSONValue :=
  match parseValue (2 * (jsTrim s).data.length + 2) s.data with
  | .ok (v, rest) => if skipWs rest = [] then .ok v else .error "unexpected trailing characters"
  | .error e => .error e

/-!
## Extraction strategies and the public entry point
-/

/-- Index of the first occurrence of a character, `none` when absent
(JavaScript `indexOf` returning -1). -/
def firstIdx (ch : Char) (l : List Char) : Option Nat :=
  if ch ∈ l then some (l.takeWhile (fun c => c ≠ ch)).length else none

/-- Strategy 2 of `extractAndParse` (lines 148-161), the locating part:
find the first `=`, skip JavaScript whitespace after it, and if the next
character opens a brace or bracket, extract the balanced block there. -/
def strategy2locate (t : String) : Option String :=
  match firstIdx '=' t.data with
  | none => none
  | some eqIdx =>
    let jsonStart := eqIdx + 1 + ((t.data.drop (eqIdx + 1)).takeWhile jsWs).length
    match (t.data.drop jsonStart).head? with
    | some c =>
      if c = '{' then extractBalanced t jsonStart '{' '}'
      else if c = '[' then extractBalanced t jsonStart '[' ']'
      else none
    | none => none

/-- Strategy 3 of `extractAndParse` (lines 164-175), the locating part: the
balanced block at the first `{`, else the balanced block at the first
`[`. -/
def strategy3locate (t : String) : Option String :=
  match (match firstIdx '{' t.data with
         | some i => extractBalanced t i '{' '}'
         | none => none) with
  | some b => some b
  | none =>
    match firstIdx '[' t.data with
    | some i => extractBalanced t i '[' ']'
    | none => none

/-- Source `extractAndParse` (lines 137-178).  `Except.error` is a decode
error raised out of `JSON.parse` and not caught; `.ok none` is the "nothing
parseable found" result; `.ok (some v)` is a decoded value. -/
def extractAndParse (raw : String) : Except String (Option JSONValue) :=
  let trimmed := jsTrim raw
  if looksLikeJSON trimmed then (decode (normalizeToJSON trimmed)).map some
  else
    match strategy2locate trimmed with
    | some block => (decode (normalizeToJSON block)).map some
    | none =>
      match strategy3locate trimmed with
      | some block => (decode (normalizeToJSON block)).map some
      | none => .ok none

/-- `hasOwnProperty` on the association-list model of an object. -/
def hasKey (es : List (String × JSONValue)) (k : String) : Bool :=
  es.any (fun e => e.1 == k)

mutual

/-- Source `findByKey` (lines 183-197) as a pure function: the collection
of objects owning `key`, in visit order.  An owning object is appended
before its entries are recursed into. -/
def findByKey : JSONValue → String → List JSONValue
  | .str _, _ => []
  | .num _, _ => []
  | .bool _, _ => []
  | .null, _ => []
  | .arr items, key => findByKeyList items key
  | .obj entries, key =>
    (if hasKey entries key then [JSONValue.obj entries] else []) ++ findByKeyEntries entries key

/-- `findByKey` over the elements of an array, in order. -/
def findByKeyList : List JSONValue → String → List JSONValue
  | [], _ => []
  | x :: xs, key => findByKey x key ++ findByKeyList xs key

/-- `findByKey` over the values of an object's entries, in insertion
order. -/
def findByKeyEntries : List (String × JSONValue) → String → List JSONValue
  | [], _ => []
  | e :: es, key => findByKey e.2 key ++ findByKeyEntries es key

end

/-- The JavaScript value given to the public entry point, split by the
`typeof` dispatch at lines 217-221: a string, a non-null object (used as a
pre-decoded value), `null`, or anything else (number, boolean,
undefined...). -/
inductive RawData where
  | str (s : String)
  | value (v : JSONValue)
  | jsNull
  | other

/-- Source `parseJSON` (lines 211-232), the public entry point.  The outer
`Except` carries a decode error raised through the extraction pipeline. -/
def parseJSON (rawData : RawData) (nodeKey : Option String) :
    Except String (Option JSONValue) :=
  let parsedE : Except String (Option JSONValue) :=
    match rawData with
    | .value v => .ok (some v)
    | .str s => extractAndParse (jsTrim s)
    | .jsNull => .ok none
    | .other => .ok none
  match parsedE with
  | .error e => .error e
  | .ok parsed =>
    match nodeKey with
    | none => .ok parsed
    | some key =>
      match parsed with
      | none => .ok (some (.arr []))
      | some p =>
        match findByKey p key with
        | [] => .ok (some (.arr []))
        | [r] => .ok (some r)
        | rs => .ok (some (.arr rs))

/-- `v` owns the key `k` directly: `v` is an object with an entry named `k`
(the `hasOwnProperty` test of `findByKey`). -/
def ownsKey (v : JSONValue) (k : String) : Bool :=
  match v with
  | .obj es => hasKey es k
  | _ => false

/-- `SubValue m v`: `m` occurs somewhere in the tree `v` (reflexively,
through array elements and object entry values).  Used to state what
"contains a nested mapping" means for the key search. -/
inductive SubValue : JSONValue → JSONValue → Prop where
  | refl (v : JSONValue) : SubValue v v
  | inArr {m x : JSONValue} {items : List JSONValue} :
      SubValue m x → x ∈ items → SubValue m (.arr items)
  | inObj {m x : JSONValue} {kk : String} {entries : List (String × JSONValue)} :
      SubValue m x → (kk, x) ∈ entries → SubValue m (.obj entries)

/-- A trailing context that cannot extend a number token the parser just
finished: either empty or starting with a character that is not a digit,
not a decimal point and not an exponent letter.  Used to state that the
decoder's result on a consumed stretch of text does not depend on what
follows it. -/
def safeAfter (r : List Char) : Prop :=
  ∀ a, r.head? = some a → a.isDigit = false ∧ a ≠ '.' ∧ a ≠ 'e' ∧ a ≠ 'E'

/-!
## Theorems

General helper lemmas first, then one theorem per claim, each preceded by a
doc comment naming the claim.
-/

/-- JSON whitespace is JavaScript whitespace. -/
theorem jsWs_of_jsonWs {c : Char} (h : jsonWs c = true) : jsWs c = true := by
  simp only [jsonWs, Bool.or_eq_true, decide_eq_true_eq] at h
  rcases h with ((h | h) | h) | h <;> subst h <;> decide

/-- Unfolding `String.mk` on both sides of a string equation. -/
theorem string_data_eq {s t : String} (h : s.data = t.data) : s = t := by
  cases s; cases t
  exact congrArg String.mk (by simpa using h)

theorem jsTrimStart_data (s : String) : (jsTrimStart s).data = s.data.dropWhile jsWs := rfl

theorem jsTrim_data (s : String) :
    (jsTrim s).data = (s.data.dropWhile jsWs).rdropWhile jsWs := rfl

/-- `dropWhile` is the identity when the head does not satisfy the
predicate. -/
theorem dropWhile_eq_self_of_head? {α : Type} {p : α → Bool} {l : List α}
    (h : ∀ a, l.head? = some a → p a = false) : l.dropWhile p = l := by
  cases l with
  | nil => rfl
  | cons a t =>
    apply List.dropWhile_cons_of_neg
    simp [h a rfl]

/-- Conversely, if `dropWhile` is the identity on a list, the head does not
satisfy the predicate. -/
theorem head?_false_of_dropWhile_eq_self {α : Type} {p : α → Bool} {l : List α}
    (h : l.dropWhile p = l) : ∀ a, l.head? = some a → p a = false := by
  intro a ha
  cases l with
  | nil => cases ha
  | cons b t =>
    obtain rfl : b = a := by simpa using ha
    by_contra hp
    rw [Bool.not_eq_false] at hp
    rw [List.dropWhile_cons_of_pos hp] at h
    have := congrArg List.length h
    have hle := (List.dropWhile_sublist (l := t) p).length_le
    simp at this
    omega

/-- `rdropWhile` is the identity when the last element does not satisfy the
predicate. -/
theorem rdropWhile_eq_self_of_getLast? {α : Type} {p : α → Bool} {l : List α}
    (h : ∀ a, l.getLast? = some a → p a = false) : l.rdropWhile p = l := by
  apply List.rdropWhile_eq_self_iff.mpr
  intro hl
  have := h (l.getLast hl) (List.getLast?_eq_getLast l hl)
  simp [this]

/-- Conversely, if `rdropWhile` is the identity on a list, the last element
does not satisfy the predicate. -/
theorem getLast?_false_of_rdropWhile_eq_self {α : Type} {p : α → Bool} {l : List α}
    (h : l.rdropWhile p = l) : ∀ a, l.getLast? = some a → p a = false := by
  intro a ha
  have hne : l ≠ [] := by intro e; rw [e] at ha; cases ha
  have h2 := List.rdropWhile_eq_self_iff.mp h hne
  have h3 : l.getLast hne = a := by
    have := List.getLast?_eq_getLast l hne
    rw [this] at ha
    simpa using ha
  rw [h3] at h2
  simpa using h2

/-- A nonempty prefix has the same optional head as the whole list. -/
theorem head?_of_front {α : Type} {l m : List α} (h : m <+: l) (hm : m ≠ []) :
    m.head? = l.head? := by
  obtain ⟨t, rfl⟩ := h
  cases m with
  | nil => exact absurd rfl hm
  | cons a s => rfl

/-- A string equal to its own trim is equal to its own start-trim and its
own end-trim. -/
theorem trim_split {s : String} (h : jsTrim s = s) :
    s.data.dropWhile jsWs = s.data ∧ s.data.rdropWhile jsWs = s.data := by
  have hd : (s.data.dropWhile jsWs).rdropWhile jsWs = s.data := congrArg String.data h
  have hpre : s.data <+: s.data.dropWhile jsWs := by
    have hp := List.rdropWhile_prefix jsWs (s.data.dropWhile jsWs)
    rw [hd] at hp
    exact hp
  have hsuf : s.data.dropWhile jsWs <:+ s.data := List.dropWhile_suffix jsWs
  have h1 : s.data.dropWhile jsWs = s.data := hsuf.eq_of_length_le hpre.length_le
  rw [h1] at hd
  exact ⟨h1, hd⟩

/-- `jsTrim` is idempotent. -/
theorem jsTrim_idem (s : String) : jsTrim (jsTrim s) = jsTrim s := by
  apply string_data_eq
  rw [jsTrim_data, jsTrim_data]
  have hd_head : ∀ a, (s.data.dropWhile jsWs).head? = some a → jsWs a = false :=
    head?_false_of_dropWhile_eq_self (List.dropWhile_idempotent jsWs s.data)
  have m_head : ∀ a, ((s.data.dropWhile jsWs).rdropWhile jsWs).head? = some a → jsWs a = false := by
    intro a ha
    have hne : (s.data.dropWhile jsWs).rdropWhile jsWs ≠ [] := by
      intro e; rw [e] at ha; cases ha
    rw [head?_of_front (List.rdropWhile_prefix jsWs (s.data.dropWhile jsWs)) hne] at ha
    exact hd_head a ha
  rw [dropWhile_eq_self_of_head? m_head, List.rdropWhile_idempotent]

/-- A string whose first and last characters are not JavaScript whitespace
is its own trim. -/
theorem jsTrim_eq_self_of_ends {s : String}
    (hh : ∀ a, s.data.head? = some a → jsWs a = false)
    (hl : ∀ a, s.data.getLast? = some a → jsWs a = false) : jsTrim s = s := by
  apply string_data_eq
  rw [jsTrim_data, dropWhile_eq_self_of_head? hh, rdropWhile_eq_self_of_getLast? hl]

/-- A string whose first character is not JavaScript whitespace is its own
start-trim. -/
theorem jsTrimStart_eq_self_of_head {s : String}
    (hh : ∀ a, s.data.head? = some a → jsWs a = false) : jsTrimStart s = s := by
  apply string_data_eq
  rw [jsTrimStart_data, dropWhile_eq_self_of_head? hh]

/-- Claim C10: a JavaScript `null`, or any raw input that is neither a
string nor a non-null object (a number, undefined, ...), is not used as a
pre-decoded value: the unkeyed call returns null and the keyed call
returns the empty collection, exactly as if text extraction had found
nothing. -/
theorem parseJSON_nonObject_input (k : String) :
    parseJSON .jsNull none = .ok none ∧
    parseJSON .jsNull (some k) = .ok (some (.arr [])) ∧
    parseJSON .other none = .ok none ∧
    parseJSON .other (some k) = .ok (some (.arr [])) :=
  ⟨rfl, rfl, rfl, rfl⟩

/-- Claim C3: on a pre-decoded value with a key, the public entry point
returns the empty collection on zero matches, the single matching mapping
itself on exactly one match, and the ordered collection of all matches on
two or more. -/
theorem parseJSON_keyed_shape (v : JSONValue) (k : String) :
    (findByKey v k = [] → parseJSON (.value v) (some k) = .ok (some (.arr []))) ∧
    (∀ r, findByKey v k = [r] → parseJSON (.value v) (some k) = .ok (some r)) ∧
    (∀ r₁ r₂ rs, findByKey v k = r₁ :: r₂ :: rs →
      parseJSON (.value v) (some k) = .ok (some (.arr (r₁ :: r₂ :: rs)))) := by
  refine ⟨fun h => ?_, fun r h => ?_, fun r₁ r₂ rs h => ?_⟩ <;>
    · simp only [parseJSON]
      rw [h]

/-- Witness for the claim C3 theorem: zero, one and two matches on concrete
values. -/
theorem parseJSON_keyed_shape_witness :
    parseJSON (.value (.obj [("a", .num 1)])) (some "k") = .ok (some (.arr [])) ∧
    parseJSON (.value (.obj [("k", .num 1)])) (some "k") = .ok (some (.obj [("k", .num 1)])) ∧
    parseJSON (.value (.arr [.obj [("k", .num 1)], .obj [("k", .num 2)]])) (some "k") =
      .ok (some (.arr [.obj [("k", .num 1)], .obj [("k", .num 2)]])) :=
  ⟨(parseJSON_keyed_shape _ "k").1 rfl,
   (parseJSON_keyed_shape _ "k").2.1 _ rfl,
   (parseJSON_keyed_shape _ "k").2.2 _ _ [] rfl⟩

/-- Claim C7: the Normalizer turns a single-quoted run into a double-quoted
one — on a single quote it emits a double quote and enters the run; inside
the run a backslash-single-quote pair is unescaped to a bare single quote,
a bare double quote is escaped, and a bare single quote closes the run with
a double quote — and the single-quoted literal \x7b'a': 'b'\x7d decodes to
the mapping with "a" bound to "b". -/
theorem normalizer_single_quote_runs :
    (∀ rest, normScanM .normal (sqc :: rest) = dqc :: normScanM .single rest) ∧
    (∀ rest, normScanM .single (bsc :: sqc :: rest) = sqc :: normScanM .single rest) ∧
    (∀ rest, normScanM .single (dqc :: rest) = bsc :: dqc :: normScanM .single rest) ∧
    (∀ rest, normScanM .single (sqc :: rest) = dqc :: normScanM .normal rest) ∧
    normalizeToJSON (String.mk ['{', sqc, 'a', sqc, ':', ' ', sqc, 'b', sqc, '}']) =
      "\x7b\x22a\x22: \x22b\x22\x7d" ∧
    parseJSON (.str (String.mk ['{', sqc, 'a', sqc, ':', ' ', sqc, 'b', sqc, '}'])) none =
      .ok (some (.obj [("a", .str "b")])) :=
  ⟨fun _ => rfl, fun _ => rfl, fun rest => by cases rest <;> rfl,
   fun rest => by cases rest <;> rfl, rfl, rfl⟩

/-- The `/^-?\d/` test holds exactly when the first character is a digit or
a minus sign followed by a digit. -/
theorem negDigitTest_iff (t : String) :
    negDigitTest t = true ↔
      ((∃ c r, t.data = c :: r ∧ c.isDigit = true) ∨
       (∃ c r, t.data = '-' :: c :: r ∧ c.isDigit = true)) := by
  obtain ⟨l⟩ := t
  rcases l with _ | ⟨c₁, _ | ⟨c₂, r⟩⟩
  · simp [negDigitTest]
  · constructor
    · intro h
      exact Or.inl ⟨c₁, [], rfl, by simpa [negDigitTest] using h⟩
    · rintro (⟨c, r, hd, hdig⟩ | ⟨c, r, hd, hdig⟩)
      · obtain ⟨rfl, rfl⟩ : c₁ = c ∧ ([] : List Char) = r := by simpa using hd
        simpa [negDigitTest] using hdig
      · simp at hd
  · by_cases h1 : c₁ = '-'
    · subst h1
      constructor
      · intro h
        have h2 : c₂.isDigit = true := by simpa [negDigitTest] using h
        exact Or.inr ⟨c₂, r, rfl, h2⟩
      · rintro (⟨c, r', hd, hdig⟩ | ⟨c, r', hd, hdig⟩)
        · obtain ⟨rfl, -⟩ : '-' = c ∧ c₂ :: r = r' := by simpa using hd
          exact absurd hdig (by decide)
        · obtain ⟨rfl, -⟩ : c₂ = c ∧ r = r' := by simpa using hd
          simpa [negDigitTest] using hdig
    · constructor
      · intro h
        have h2 : c₁.isDigit = true := by simpa [negDigitTest, h1] using h
        exact Or.inl ⟨c₁, c₂ :: r, rfl, h2⟩
      · rintro (⟨c, r', hd, hdig⟩ | ⟨c, r', hd, hdig⟩)
        · obtain ⟨rfl, -⟩ : c₁ = c ∧ c₂ :: r = r' := by simpa using hd
          simpa [negDigitTest, h1] using hdig
        · obtain ⟨he, -⟩ : c₁ = '-' ∧ (c₂ = c ∧ r = r') := by simpa using hd
          exact absurd he h1

/-- Counterexample to claim C2 as stated: the string "truex" is already
trimmed and begins with the literal "true", yet the classifier rejects it —
the code compares the whole string with the literal instead of testing a
prefix. -/
theorem looksLikeJSON_not_prefix_literal :
    jsTrimStart "truex" = "truex" ∧
    "true".data.isPrefixOf "truex".data = true ∧
    looksLikeJSON "truex" = false :=
  ⟨rfl, rfl, rfl⟩

/-- Claim C2 (amended): for a string already trimmed of leading whitespace,
the classifier accepts exactly the strings beginning with a brace, bracket
or double quote, the strings that are exactly the literal true, false or
null, and the strings matching `-?digit` at the start. -/
theorem looksLikeJSON_characterization (s : String) (h : jsTrimStart s = s) :
    looksLikeJSON s = true ↔
      ((∃ r, s.data = '{' :: r) ∨ (∃ r, s.data = '[' :: r) ∨ (∃ r, s.data = dqc :: r) ∨
       s = "true" ∨ s = "false" ∨ s = "null" ∨
       (∃ c r, s.data = c :: r ∧ c.isDigit = true) ∨
       (∃ c r, s.data = '-' :: c :: r ∧ c.isDigit = true)) := by
  rw [looksLikeJSON]
  simp only [h, Bool.or_eq_true, List.isPrefixOf_iff_prefix, beq_iff_eq]
  constructor
  · intro hc
    rcases hc with ((((((hc | hc) | hc) | hc) | hc) | hc) | hc)
    · obtain ⟨r, hr⟩ := hc
      exact Or.inl ⟨r, hr.symm⟩
    · obtain ⟨r, hr⟩ := hc
      exact Or.inr (Or.inl ⟨r, hr.symm⟩)
    · obtain ⟨r, hr⟩ := hc
      exact Or.inr (Or.inr (Or.inl ⟨r, hr.symm⟩))
    · exact Or.inr (Or.inr (Or.inr (Or.inl hc)))
    · exact Or.inr (Or.inr (Or.inr (Or.inr (Or.inl hc))))
    · exact Or.inr (Or.inr (Or.inr (Or.inr (Or.inr (Or.inl hc)))))
    · rcases (negDigitTest_iff s).mp hc with h9 | h9
      · exact Or.inr (Or.inr (Or.inr (Or.inr (Or.inr (Or.inr (Or.inl h9))))))
      · exact Or.inr (Or.inr (Or.inr (Or.inr (Or.inr (Or.inr (Or.inr h9))))))
  · intro hc
    rcases hc with hc | hc | hc | hc | hc | hc | hc | hc
    · obtain ⟨r, hr⟩ := hc
      exact Or.inl (Or.inl (Or.inl (Or.inl (Or.inl (Or.inl ⟨r, hr.symm⟩)))))
    · obtain ⟨r, hr⟩ := hc
      exact Or.inl (Or.inl (Or.inl (Or.inl (Or.inl (Or.inr ⟨r, hr.symm⟩)))))
    · obtain ⟨r, hr⟩ := hc
      exact Or.inl (Or.inl (Or.inl (Or.inl (Or.inr ⟨r, hr.symm⟩))))
    · exact Or.inl (Or.inl (Or.inl (Or.inr hc)))
    · exact Or.inl (Or.inl (Or.inr hc))
    · exact Or.inl (Or.inr hc)
    · exact Or.inr ((negDigitTest_iff s).mpr (Or.inl hc))
    · exact Or.inr ((negDigitTest_iff s).mpr (Or.inr hc))

/-- Witness for the claim C2 theorem: the literal true is accepted. -/
theorem looksLikeJSON_characterization_witness : looksLikeJSON "true" = true :=
  (looksLikeJSON_characterization "true" rfl).mpr
    (Or.inr (Or.inr (Or.inr (Or.inl rfl))))

/-- Anything found by `findByKey` in an element is found in the array walk. -/
theorem mem_findByKeyList_of_mem {x : JSONValue} {items : List JSONValue} {k : String}
    (hx : x ∈ items) {y : JSONValue} (hy : y ∈ findByKey x k) :
    y ∈ findByKeyList items k := by
  induction items with
  | nil => cases hx
  | cons a t ih =>
    simp only [findByKeyList, List.mem_append]
    rcases List.mem_cons.mp hx with rfl | hx'
    · exact Or.inl hy
    · exact Or.inr (ih hx')

/-- Anything found by `findByKey` in an entry value is found in the object
entries walk. -/
theorem mem_findByKeyEntries_of_mem {kk : String} {x : JSONValue}
    {entries : List (String × JSONValue)} {k : String}
    (hx : (kk, x) ∈ entries) {y : JSONValue} (hy : y ∈ findByKey x k) :
    y ∈ findByKeyEntries entries k := by
  induction entries with
  | nil => cases hx
  | cons e es ih =>
    simp only [findByKeyEntries, List.mem_append]
    rcases List.mem_cons.mp hx with he | hx'
    · subst he
      exact Or.inl hy
    · exact Or.inr (ih hx')

/-- Completeness of the key search: every subvalue that owns the key is in
the result collection. -/
theorem mem_findByKey_of_subValue {m v : JSONValue} {k : String}
    (hsub : SubValue m v) (hk : ownsKey m k = true) : m ∈ findByKey v k := by
  induction hsub with
  | refl =>
    cases m with
    | obj es =>
      have hk2 : hasKey es k = true := by simpa [ownsKey] using hk
      simp [findByKey, hk2]
    | str s => simp [ownsKey] at hk
    | num q => simp [ownsKey] at hk
    | bool b => simp [ownsKey] at hk
    | null => simp [ownsKey] at hk
    | arr items => simp [ownsKey] at hk
  | inArr hs hmem ih =>
    simp only [findByKey]
    exact mem_findByKeyList_of_mem hmem ih
  | inObj hs hmem ih =>
    simp only [findByKey, List.mem_append]
    exact Or.inr (mem_findByKeyEntries_of_mem hmem ih)

/-- Claim C5: when an object owns the searched key and some value nested in
its entries is an object owning the same key, the key search returns the
outer object first — it is appended before the entries are recursed into —
and the nested owner appears among the results of that recursion. -/
theorem findByKey_outer_before_inner (entries : List (String × JSONValue)) (k : String)
    (m : JSONValue) (houter : hasKey entries k = true)
    (hnested : ∃ e ∈ entries, SubValue m e.2) (hmk : ownsKey m k = true) :
    findByKey (.obj entries) k = JSONValue.obj entries :: findByKeyEntries entries k ∧
    m ∈ findByKeyEntries entries k := by
  constructor
  · simp [findByKey, houter]
  · obtain ⟨e, he, hsub⟩ := hnested
    have hm := mem_findByKey_of_subValue hsub hmk
    have h2 : (e.1, e.2) ∈ entries := by simpa using he
    exact mem_findByKeyEntries_of_mem h2 hm

/-- Witness for the claim C5 theorem: \x7b"k": 1, "b": \x7b"k": 2\x7d\x7d
yields the outer object first, the nested one among the recursed
results. -/
theorem findByKey_outer_before_inner_witness :
    findByKey (.obj [("k", .num 1), ("b", .obj [("k", .num 2)])]) "k" =
      JSONValue.obj [("k", .num 1), ("b", .obj [("k", .num 2)])] ::
        findByKeyEntries [("k", .num 1), ("b", .obj [("k", .num 2)])] "k" ∧
    JSONValue.obj [("k", .num 2)] ∈
      findByKeyEntries [("k", .num 1), ("b", .obj [("k", .num 2)])] "k" :=
  findByKey_outer_before_inner _ "k" _ rfl
    ⟨("b", .obj [("k", .num 2)]), by simp, SubValue.refl _⟩ rfl

/-- One scanning step of `extractBalanced` preserves the result shape: the
output is the consumed character followed by a result of the recursive
scan. -/
theorem ebAux_step {cl ch : Char} {rest s : List Char} {res : Option (List Char)}
    (h : res.map (ch :: ·) = some s)
    (ih : ∀ s0, res = some s0 → (∃ u, s0 ++ u = rest) ∧ s0.getLast? = some cl) :
    (∃ u, s ++ u = ch :: rest) ∧ s.getLast? = some cl := by
  obtain ⟨s0, h0, hs⟩ := Option.map_eq_some'.mp h
  subst hs
  obtain ⟨⟨u, hu⟩, hl⟩ := ih s0 h0
  have hs0ne : s0 ≠ [] := by intro e; rw [e] at hl; cases hl
  constructor
  · exact ⟨u, by rw [List.cons_append, hu]⟩
  · rcases s0 with _ | ⟨b, s1⟩
    · exact absurd rfl hs0ne
    · rw [List.getLast?_cons_cons]
      exact hl

/-- Whenever the balanced scan succeeds, the result is a prefix of the
scanned characters and ends with the closing delimiter. -/
theorem ebAux_some (op cl : Char) (l : List Char) :
    ∀ (depth : Int) (inStr esc : Bool) (s : List Char),
      ebAux op cl l depth inStr esc = some s →
      (∃ u, s ++ u = l) ∧ s.getLast? = some cl := by
  induction l with
  | nil =>
    intro depth inStr esc s h
    simp [ebAux] at h
  | cons ch rest ih =>
    intro depth inStr esc s h
    simp only [ebAux] at h
    split_ifs at h with h1 h2 h3 h4 h5 h6 h7
    · exact ebAux_step h (fun s0 h0 => ih _ _ _ s0 h0)
    · exact ebAux_step h (fun s0 h0 => ih _ _ _ s0 h0)
    · exact ebAux_step h (fun s0 h0 => ih _ _ _ s0 h0)
    · exact ebAux_step h (fun s0 h0 => ih _ _ _ s0 h0)
    · exact ebAux_step h (fun s0 h0 => ih _ _ _ s0 h0)
    · obtain rfl : [ch] = s := by simpa using h
      subst h6
      exact ⟨⟨rest, rfl⟩, rfl⟩
    · exact ebAux_step h (fun s0 h0 => ih _ _ _ s0 h0)
    · exact ebAux_step h (fun s0 h0 => ih _ _ _ s0 h0)

/-- Claim C6: the balanced extractor ignores delimiters inside double-quoted
runs (with backslash escaping) while counting depth; on success it returns
the substring from the start position through the closing delimiter where
the depth first returns to zero (a prefix of the scanned text ending in the
closing delimiter); on exhaustion it reports `none` — no partial result, no
error.  In particular the block \x7b"a": "x\x7by\x7dz"\x7d is extracted
whole in front of trailing prose, a string containing an escaped quote and
a brace does not disturb the count, an unterminated block yields `none`,
and \x7b"a": "x\x7by\x7dz"\x7d decodes with "a" bound to the literal
x\x7by\x7dz. -/
theorem extractBalanced_spec :
    (∀ (text : String) (start : Nat) (op cl : Char) (s : String),
       extractBalanced text start op cl = some s →
       (∃ u, s.data ++ u = text.data.drop start) ∧ s.data.getLast? = some cl) ∧
    extractBalanced "\x7b\x22a\x22: \x22x\x7by\x7dz\x22\x7d tail" 0 '{' '}' =
      some "\x7b\x22a\x22: \x22x\x7by\x7dz\x22\x7d" ∧
    extractBalanced
        (String.mk ['{', dqc, 'a', bsc, dqc, '}', dqc, ':', ' ', '1', '}']) 0 '{' '}' =
      some (String.mk ['{', dqc, 'a', bsc, dqc, '}', dqc, ':', ' ', '1', '}']) ∧
    extractBalanced "\x7b\x22a\x22: 1" 0 '{' '}' = none ∧
    parseJSON (.str "\x7b\x22a\x22: \x22x\x7by\x7dz\x22\x7d") none =
      .ok (some (.obj [("a", .str "x\x7by\x7dz")])) := by
  refine ⟨?_, rfl, rfl, rfl, rfl⟩
  intro text start op cl s h
  rw [extractBalanced] at h
  obtain ⟨l0, h0, hs⟩ := Option.map_eq_some'.mp h
  subst hs
  exact ebAux_some op cl _ 0 false false l0 h0

/-- Witness for the claim C6 theorem: the extracted block is a prefix of
the text from the start index and ends with the closing brace. -/
theorem extractBalanced_spec_witness :
    (∃ u, ("\x7b\x22a\x22: \x22x\x7by\x7dz\x22\x7d" : String).data ++ u =
       ("\x7b\x22a\x22: \x22x\x7by\x7dz\x22\x7d tail" : String).data.drop 0) ∧
    ("\x7b\x22a\x22: \x22x\x7by\x7dz\x22\x7d" : String).data.getLast? = some '}' :=
  extractBalanced_spec.1 "\x7b\x22a\x22: \x22x\x7by\x7dz\x22\x7d tail" 0 '{' '}' _ rfl

/-- When no strategy locates a block, extraction reports absence. -/
theorem extractAndParse_none_of_noStrategy {raw : String}
    (h1 : looksLikeJSON (jsTrim raw) = false)
    (h2 : strategy2locate (jsTrim raw) = none)
    (h3 : strategy3locate (jsTrim raw) = none) :
    extractAndParse raw = .ok none := by
  simp [extractAndParse, h1, h2, h3]

/-- Claim C4: when no strategy locates an extractable block the unkeyed
entry point returns null and the keyed entry point the empty collection,
with no error; when a block is located but the strict decoder rejects it,
the decoder's error propagates unchanged out of the public entry point. -/
theorem parseJSON_absence_and_error (s : String) (k : String) :
    ((looksLikeJSON (jsTrim s) = false ∧ strategy2locate (jsTrim s) = none ∧
        strategy3locate (jsTrim s) = none) →
      parseJSON (.str s) none = .ok none ∧
      parseJSON (.str s) (some k) = .ok (some (.arr []))) ∧
    (∀ e, extractAndParse (jsTrim s) = .error e →
      parseJSON (.str s) none = .error e ∧ parseJSON (.str s) (some k) = .error e) := by
  constructor
  · rintro ⟨h1, h2, h3⟩
    have hE : extractAndParse (jsTrim s) = .ok none := by
      apply extractAndParse_none_of_noStrategy <;> rw [jsTrim_idem] <;> assumption
    constructor <;> simp [parseJSON, hE]
  · intro e he
    constructor <;> simp [parseJSON, he]

/-- Witness for the claim C4 theorem: prose with no block gives null and
the empty collection; a located block that normalizes to still-invalid
JSON raises, on both the unkeyed and the keyed path. -/
theorem parseJSON_absence_and_error_witness :
    (parseJSON (.str "hello") none = .ok none ∧
     parseJSON (.str "hello") (some "k") = .ok (some (.arr []))) ∧
    (parseJSON (.str "\x7b,,\x7d") none = .error "expected key" ∧
     parseJSON (.str "\x7b,,\x7d") (some "k") = .error "expected key") :=
  ⟨(parseJSON_absence_and_error "hello" "k").1 ⟨rfl, rfl, rfl⟩,
   (parseJSON_absence_and_error "\x7b,,\x7d" "k").2 "expected key" rfl⟩


/-- ASCII letters sit in the code-point interval 65..122. -/
theorem alpha_range {c : Char} (h : c.isAlpha = true) : 65 ≤ c.toNat ∧ c.toNat ≤ 122 := by
  simp only [Char.isAlpha, Char.isUpper, Char.isLower, Bool.or_eq_true, Bool.and_eq_true,
    decide_eq_true_eq] at h
  rcases h with ⟨h1, h2⟩ | ⟨h1, h2⟩
  · rw [ge_iff_le, UInt32.le_def, BitVec.le_def] at h1
    rw [UInt32.le_def, BitVec.le_def] at h2
    exact ⟨le_trans (by decide) (h1 : (65 : UInt32).toBitVec.toNat ≤ c.toNat),
           le_trans (h2 : c.toNat ≤ (90 : UInt32).toBitVec.toNat) (by decide)⟩
  · rw [ge_iff_le, UInt32.le_def, BitVec.le_def] at h1
    rw [UInt32.le_def, BitVec.le_def] at h2
    exact ⟨le_trans (by decide) (h1 : (97 : UInt32).toBitVec.toNat ≤ c.toNat),
           le_trans (h2 : c.toNat ≤ (122 : UInt32).toBitVec.toNat) (by decide)⟩

/-- ASCII digits sit in the code-point interval 48..57. -/
theorem digit_range {c : Char} (h : c.isDigit = true) : 48 ≤ c.toNat ∧ c.toNat ≤ 57 := by
  simp only [Char.isDigit, Bool.and_eq_true, decide_eq_true_eq] at h
  obtain ⟨h1, h2⟩ := h
  rw [ge_iff_le, UInt32.le_def, BitVec.le_def] at h1
  rw [UInt32.le_def, BitVec.le_def] at h2
  exact ⟨le_trans (by decide) (h1 : (48 : UInt32).toBitVec.toNat ≤ c.toNat),
         le_trans (h2 : c.toNat ≤ (57 : UInt32).toBitVec.toNat) (by decide)⟩

/-- No JavaScript whitespace character lies in the code-point interval
36..122. -/
theorem jsWs_eq_false_of_range {c : Char} (hlo : 36 ≤ c.toNat) (hhi : c.toNat ≤ 122) :
    jsWs c = false := by
  by_contra hw
  rw [Bool.not_eq_false] at hw
  simp only [jsWs, Bool.or_eq_true, Bool.and_eq_true, decide_eq_true_eq] at hw
  rcases hw with ((((((((((((((h|h)|h)|h)|h)|h)|h)|h)|h)|⟨h1,h2⟩)|h)|h)|h)|h)|h)|h <;>
    first
      | omega
      | (subst h
         first
           | exact absurd hlo (by decide)
           | exact absurd hhi (by decide))
      | exact absurd hlo (by decide)
      | exact absurd hhi (by decide)

/-- An identifier-start character is never JavaScript whitespace. -/
theorem not_jsWs_of_isIdentStart {c : Char} (h : isIdentStart c = true) : jsWs c = false := by
  simp only [isIdentStart, Bool.or_eq_true, decide_eq_true_eq] at h
  rcases h with (h | h) | h
  · obtain ⟨h1, h2⟩ := alpha_range h
    exact jsWs_eq_false_of_range (by omega) h2
  · first
      | (subst h; decide)
      | decide
  · first
      | (subst h; decide)
      | decide

/-- An identifier character is never JavaScript whitespace. -/
theorem not_jsWs_of_isIdentChar {c : Char} (h : isIdentChar c = true) : jsWs c = false := by
  simp only [isIdentChar, Char.isAlphanum, Bool.or_eq_true, decide_eq_true_eq] at h
  rcases h with ((h | h) | h) | h
  · obtain ⟨h1, h2⟩ := alpha_range h
    exact jsWs_eq_false_of_range (by omega) h2
  · obtain ⟨h1, h2⟩ := digit_range h
    exact jsWs_eq_false_of_range (by omega) (by omega)
  · first
      | (subst h; decide)
      | decide
  · first
      | (subst h; decide)
      | decide

/-- A JavaScript whitespace character is never an identifier character. -/
theorem not_isIdentChar_of_jsWs {c : Char} (h : jsWs c = true) : isIdentChar c = false := by
  by_contra hh
  rw [Bool.not_eq_false] at hh
  rw [not_jsWs_of_isIdentChar hh] at h
  cases h

/-- `takeWhile` yields nothing when the head fails the predicate. -/
theorem takeWhile_eq_nil_of_head? {α : Type} {p : α → Bool} {l : List α}
    (h : ∀ a, l.head? = some a → p a = false) : l.takeWhile p = [] := by
  cases l with
  | nil => rfl
  | cons a t => exact List.takeWhile_cons_of_neg (by simp [h a rfl])

/-- The key-quoting regex tail matches exactly a maximal whitespace run, a
maximal identifier, a maximal whitespace run and a colon. -/
theorem tryKeyMatch_exact (i0 : Char) (ws1 identT ws2 rest : List Char)
    (hws1 : ∀ x ∈ ws1, jsWs x = true)
    (hi0 : isIdentStart i0 = true)
    (hidT : ∀ x ∈ identT, isIdentChar x = true)
    (hws2 : ∀ x ∈ ws2, jsWs x = true) :
    tryKeyMatch (ws1 ++ i0 :: (identT ++ (ws2 ++ ':' :: rest))) =
      some (ws1, i0 :: identT, ws2, rest) := by
  have hi0ws : jsWs i0 = false := not_jsWs_of_isIdentStart hi0
  have hJoin : ∀ a, (ws2 ++ ':' :: rest).head? = some a → isIdentChar a = false := by
    intro a ha
    cases ws2 with
    | nil =>
      obtain rfl : a = ':' := by simpa using ha.symm
      decide
    | cons w ws2t =>
      have hw : a = w := by simpa using ha.symm
      subst hw
      exact not_isIdentChar_of_jsWs (hws2 a (List.mem_cons_self a ws2t))
  have h1t : (ws1 ++ i0 :: (identT ++ (ws2 ++ ':' :: rest))).takeWhile jsWs = ws1 := by
    rw [List.takeWhile_append_of_pos hws1,
      List.takeWhile_cons_of_neg (by simp [hi0ws]), List.append_nil]
  have h1d : (ws1 ++ i0 :: (identT ++ (ws2 ++ ':' :: rest))).dropWhile jsWs =
      i0 :: (identT ++ (ws2 ++ ':' :: rest)) := by
    rw [List.dropWhile_append_of_pos hws1,
      List.dropWhile_cons_of_neg (by simp [hi0ws])]
  have h2t : (identT ++ (ws2 ++ ':' :: rest)).takeWhile isIdentChar = identT := by
    rw [List.takeWhile_append_of_pos hidT, takeWhile_eq_nil_of_head? hJoin, List.append_nil]
  have h2d : (identT ++ (ws2 ++ ':' :: rest)).dropWhile isIdentChar = ws2 ++ ':' :: rest := by
    rw [List.dropWhile_append_of_pos hidT, dropWhile_eq_self_of_head? hJoin]
  have h3t : (ws2 ++ ':' :: rest).takeWhile jsWs = ws2 := by
    rw [List.takeWhile_append_of_pos hws2, List.takeWhile_cons_of_neg (by decide),
      List.append_nil]
  have h3d : (ws2 ++ ':' :: rest).dropWhile jsWs = ':' :: rest := by
    rw [List.dropWhile_append_of_pos hws2, List.dropWhile_cons_of_neg (by decide)]
  simp only [tryKeyMatch, h1t, h1d, hi0, h2t, h2d, h3t, h3d, if_true]

/-- A successful key match consumes at least the identifier and the colon:
the remainder is strictly shorter than the input. -/
theorem tryKeyMatch_shrink {l a b c d : List Char} (h : tryKeyMatch l = some (a, b, c, d)) :
    d.length < l.length := by
  simp only [tryKeyMatch] at h
  split at h
  · simp at h
  · rename_i c1 r1t heq
    split_ifs at h with hident
    · split at h
      · rename_i r4 heq3
        simp only [Option.some.injEq, Prod.mk.injEq] at h
        obtain ⟨-, -, -, rfl⟩ := h
        have e1 : (l.dropWhile jsWs).length ≤ l.length := (List.dropWhile_sublist jsWs).length_le
        rw [heq] at e1
        have e2 : (r1t.dropWhile isIdentChar).length ≤ r1t.length :=
          (List.dropWhile_sublist isIdentChar).length_le
        have e3 : ((r1t.dropWhile isIdentChar).dropWhile jsWs).length ≤
            (r1t.dropWhile isIdentChar).length := (List.dropWhile_sublist jsWs).length_le
        rw [heq3] at e3
        simp only [List.length_cons] at e1 e3
        omega
      · simp at h

/-- The fuel argument of the key-quoting scan is irrelevant once it covers
the length of the input. -/
theorem quoteKeysAux_congr : ∀ (f g : Nat) (l : List Char), l.length ≤ f → l.length ≤ g →
    quoteKeysAux f l = quoteKeysAux g l := by
  intro f
  induction f with
  | zero =>
    intro g l hf hg
    obtain rfl : l = [] := List.length_eq_zero.mp (Nat.le_zero.mp hf)
    cases g <;> rfl
  | succ f ih =>
    intro g l hf hg
    cases l with
    | nil => cases g <;> rfl
    | cons c rest =>
      cases g with
      | zero => simp at hg
      | succ g' =>
        simp only [List.length_cons] at hf hg
        simp only [quoteKeysAux]
        by_cases hc : c = '{' ∨ c = ','
        · rw [if_pos hc, if_pos hc]
          cases htm : tryKeyMatch rest with
          | none =>
            simp only [htm]
            rw [ih g' rest (by omega) (by omega)]
          | some q =>
            obtain ⟨ws1, ident, ws2, r⟩ := q
            have hlen := tryKeyMatch_shrink htm
            simp only [htm]
            rw [ih g' r (by omega) (by omega)]
        · rw [if_neg hc, if_neg hc, ih g' rest (by omega) (by omega)]

/-- Claim C8: the key-quoting pass wraps in double quotes any identifier
(start character `[A-Za-z_$]`, continuation `[A-Za-z0-9_$]`) that follows a
brace or comma through optional whitespace and precedes a colon through
optional whitespace, and the scan resumes after the colon; in particular
\x7ba: 1, b: 2\x7d decodes to a mapping with keys "a" and "b". -/
theorem key_quoting (c i0 : Char) (ws1 identT ws2 rest : List Char)
    (hc : c = '{' ∨ c = ',')
    (hws1 : ∀ x ∈ ws1, jsWs x = true)
    (hi0 : isIdentStart i0 = true)
    (hidT : ∀ x ∈ identT, isIdentChar x = true)
    (hws2 : ∀ x ∈ ws2, jsWs x = true) :
    quoteKeys (c :: (ws1 ++ i0 :: (identT ++ (ws2 ++ ':' :: rest)))) =
      c :: (ws1 ++ dqc :: ((i0 :: identT) ++ dqc :: (ws2 ++ ':' :: quoteKeys rest))) ∧
    parseJSON (.str "\x7ba: 1, b: 2\x7d") none =
      .ok (some (.obj [("a", .num 1), ("b", .num 2)])) := by
  constructor
  · have htm := tryKeyMatch_exact i0 ws1 identT ws2 rest hws1 hi0 hidT hws2
    rw [quoteKeys, List.length_cons]
    simp only [quoteKeysAux, if_pos hc, htm]
    rw [quoteKeysAux_congr (ws1 ++ i0 :: (identT ++ (ws2 ++ ':' :: rest))).length
      rest.length rest (by simp [List.length_append]; omega) le_rfl]
    rfl
  · rfl

/-- Witness for the claim C8 theorem: the identifier a after a brace and
before a colon is wrapped in double quotes. -/
theorem key_quoting_witness :
    quoteKeys ('{' :: ([] ++ 'a' :: ([] ++ ([] ++ ':' :: [' ', '1'])))) =
      '{' :: ([] ++ dqc :: (('a' :: []) ++ dqc :: ([] ++ ':' :: quoteKeys [' ', '1']))) :=
  (key_quoting '{' 'a' [] [] [] [' ', '1'] (Or.inl rfl) (by simp) (by decide)
    (by simp) (by simp)).1

/-- An accepted classifier means the extraction is the normalize-and-decode
of the trimmed input (strategy 1). -/
theorem extractAndParse_of_looksLike {raw : String} (h : looksLikeJSON (jsTrim raw) = true) :
    extractAndParse raw = (decode (normalizeToJSON (jsTrim raw))).map some := by
  simp [extractAndParse, h]

/-- A rejected classifier with a successful assignment strategy means the
extraction is the normalize-and-decode of the extracted block
(strategy 2). -/
theorem extractAndParse_of_strategy2 {raw b : String}
    (h1 : looksLikeJSON (jsTrim raw) = false)
    (h2 : strategy2locate (jsTrim raw) = some b) :
    extractAndParse raw = (decode (normalizeToJSON b)).map some := by
  simp [extractAndParse, h1, h2]

/-- A successful balanced extraction whose start position holds the opening
delimiter yields a block that starts with it and ends with the closing
delimiter. -/
theorem extractBalanced_head_last {t : String} {start : Nat} {op cl : Char} {b : String}
    (h : extractBalanced t start op cl = some b)
    (hc : (t.data.drop start).head? = some op) :
    b.data.head? = some op /\ b.data.getLast? = some cl := by
  rw [extractBalanced] at h
  obtain h' := Option.map_eq_some'.mp h
  obtain ⟨l0, h0, hs⟩ := h'
  subst hs
  obtain ⟨⟨u, hu⟩, hl⟩ := ebAux_some op cl _ 0 false false l0 h0
  have hne : l0 ≠ [] := by intro e; rw [e] at hl; cases hl
  constructor
  · have hh := head?_of_front (⟨u, rfl⟩ : l0 <+: l0 ++ u) hne
    rw [hu, hc] at hh
    exact hh
  · exact hl

/-- The blocks located by the assignment strategy start with a brace or
bracket and end with the matching closing delimiter. -/
theorem strategy2_block_shape {t b : String} (h : strategy2locate t = some b) :
    (b.data.head? = some '{' /\ b.data.getLast? = some '}') ∨
    (b.data.head? = some '[' /\ b.data.getLast? = some ']') := by
  simp only [strategy2locate] at h
  split at h
  · simp at h
  · split at h
    · rename_i heads c hc
      split_ifs at h with hb1 hb2
      · subst hb1
        exact Or.inl (extractBalanced_head_last h hc)
      · subst hb2
        exact Or.inr (extractBalanced_head_last h hc)
    · simp at h

/-- Claim C9: when the bare-literal strategy does not apply and the
assignment strategy locates a balanced block after the first equals sign,
extraction of the whole input equals extraction of the bare block, namely
normalize-and-decode of that block. -/
theorem strategy2_same_as_bare (raw b : String)
    (h1 : looksLikeJSON (jsTrim raw) = false)
    (h2 : strategy2locate (jsTrim raw) = some b) :
    extractAndParse raw = extractAndParse b /\
    extractAndParse raw = (decode (normalizeToJSON b)).map some := by
  have hshape := strategy2_block_shape h2
  have hhead : ∃ c, b.data.head? = some c /\ (c = '{' ∨ c = '[') := by
    rcases hshape with ⟨hh, -⟩ | ⟨hh, -⟩
    exacts [⟨'{', hh, Or.inl rfl⟩, ⟨'[', hh, Or.inr rfl⟩]
  have hlast : ∃ d, b.data.getLast? = some d /\ (d = '}' ∨ d = ']') := by
    rcases hshape with ⟨-, hl⟩ | ⟨-, hl⟩
    exacts [⟨'}', hl, Or.inl rfl⟩, ⟨']', hl, Or.inr rfl⟩]
  obtain ⟨c, hc, hcor⟩ := hhead
  obtain ⟨d, hd, hdor⟩ := hlast
  have htrim : jsTrim b = b := by
    apply jsTrim_eq_self_of_ends
    · intro a ha
      rw [hc] at ha
      obtain rfl : a = c := by simpa using ha.symm
      rcases hcor with rfl | rfl <;> decide
    · intro a ha
      rw [hd] at ha
      obtain rfl : a = d := by simpa using ha.symm
      rcases hdor with rfl | rfl <;> decide
  have hlook : looksLikeJSON b = true := by
    obtain ⟨tl, htl⟩ := List.head?_eq_some_iff.mp hc
    have hts : jsTrimStart b = b := by
      apply jsTrimStart_eq_self_of_head
      intro a ha
      rw [hc] at ha
      obtain rfl : a = c := by simpa using ha.symm
      rcases hcor with rfl | rfl <;> decide
    simp only [looksLikeJSON, hts, htl, Bool.or_eq_true]
    rcases hcor with rfl | rfl <;> simp [List.isPrefixOf]
  have h3 : extractAndParse b = (decode (normalizeToJSON b)).map some := by
    rw [extractAndParse_of_looksLike (by rw [htrim]; exact hlook), htrim]
  have h4 : extractAndParse raw = (decode (normalizeToJSON b)).map some :=
    extractAndParse_of_strategy2 h1 h2
  exact ⟨h4.trans h3.symm, h4⟩

/-- Witness for the claim C9 theorem: var x = \x7b"a": 1\x7d extracts the
same mapping as the bare literal \x7b"a": 1\x7d. -/
theorem strategy2_same_as_bare_witness :
    extractAndParse "var x = \x7b\x22a\x22: 1\x7d" =
      extractAndParse "\x7b\x22a\x22: 1\x7d" /\
    extractAndParse "var x = \x7b\x22a\x22: 1\x7d" = .ok (some (.obj [("a", .num 1)])) :=
  ⟨(strategy2_same_as_bare "var x = \x7b\x22a\x22: 1\x7d" "\x7b\x22a\x22: 1\x7d" rfl rfl).1,
   ((strategy2_same_as_bare "var x = \x7b\x22a\x22: 1\x7d" "\x7b\x22a\x22: 1\x7d"
      rfl rfl).2).trans rfl⟩

/-- The classifier accepts any string whose first character is a brace,
bracket or double quote, provided nothing is trimmed from its start. -/
theorem looksLikeJSON_of_head3 {s : String} {c : Char} (hc : s.data.head? = some c)
    (hstart : s.data.dropWhile jsWs = s.data)
    (h : c = '{' ∨ c = '[' ∨ c = dqc) : looksLikeJSON s = true := by
  obtain ⟨tl, htl⟩ := List.head?_eq_some_iff.mp hc
  have hts : jsTrimStart s = s := string_data_eq (by rw [jsTrimStart_data, hstart])
  simp only [looksLikeJSON, hts, Bool.or_eq_true]
  rcases h with rfl | rfl | rfl <;> simp [List.isPrefixOf, htl]

/-- The classifier accepts any string passing the `-?digit` test, provided
nothing is trimmed from its start. -/
theorem looksLikeJSON_of_negDigit {s : String}
    (hstart : s.data.dropWhile jsWs = s.data) (h : negDigitTest s = true) :
    looksLikeJSON s = true := by
  have hts : jsTrimStart s = s := string_data_eq (by rw [jsTrimStart_data, hstart])
  simp [looksLikeJSON, hts, h]

/-- On an end-trimmed string, a whitespace-only remainder after a leading
literal is empty. -/
theorem ws_suffix_nil {c : Char} {cs r : List Char} (pre : List Char)
    (hcs : cs = pre ++ r)
    (hend : (c :: cs).rdropWhile jsWs = c :: cs)
    (hws : skipWs r = []) : r = [] := by
  rcases r with _ | ⟨a, r'⟩
  · rfl
  · exfalso
    have hall : ∀ x ∈ a :: r', jsonWs x = true :=
      List.dropWhile_eq_nil_iff.mp (hws : (a :: r').dropWhile jsonWs = [])
    have hx? : (a :: r').getLast? = some ((a :: r').getLast (by simp)) :=
      List.getLast?_eq_getLast _ _
    have hlast : (c :: cs).getLast? = some ((a :: r').getLast (by simp)) := by
      rw [hcs, show c :: (pre ++ a :: r') = (c :: pre) ++ (a :: r') from by simp,
        List.getLast?_append, hx?]
      rfl
    have hxws := getLast?_false_of_rdropWhile_eq_self hend _ hlast
    have hxj : jsonWs ((a :: r').getLast (by simp)) = true :=
      hall _ (List.getLast_mem _)
    rw [jsWs_of_jsonWs hxj] at hxws
    cases hxws

/-- Any text the strict decoder accepts is accepted by the classifier once
trimmed: a decodable text starts with a brace, bracket, quote, one of the
three literals (with nothing after it on a trimmed string), or a `-?digit`
number start. -/
theorem looksLikeJSON_of_decode {s : String} {v : JSONValue}
    (ht : jsTrim s = s) (hd : decode s = .ok v) : looksLikeJSON s = true := by
  obtain ⟨hstart0, hend0⟩ := trim_split ht
  obtain ⟨l⟩ := s
  have hstart : l.dropWhile jsWs = l := hstart0
  have hend : l.rdropWhile jsWs = l := hend0
  have hd' : decode (String.mk l) = .ok v := hd
  have ht' : jsTrim (String.mk l) = String.mk l := ht
  clear hd hstart0 hend0 ht
  cases l with
  | nil =>
    rw [show decode (String.mk ([] : List Char)) = .error "unexpected end of input" from rfl]
      at hd'
    exact Except.noConfusion hd'
  | cons c cs =>
    have hcw : jsWs c = false := head?_false_of_dropWhile_eq_self hstart c rfl
    have hcj : jsonWs c = false := by
      by_contra hh
      rw [Bool.not_eq_false] at hh
      rw [jsWs_of_jsonWs hh] at hcw
      cases hcw
    have hskip : skipWs (c :: cs) = c :: cs := by
      rw [skipWs, List.dropWhile_cons_of_neg (by simp [hcj])]
    rcases hpv : parseValue (2 * (jsTrim (String.mk (c :: cs))).data.length + 2)
        (String.mk (c :: cs)).data with e | ⟨v', rest⟩
    · rw [decode, hpv] at hd'
      simp at hd'
    · have hws : skipWs rest = [] := by
        by_cases hq : skipWs rest = []
        · exact hq
        · rw [decode, hpv] at hd'
          simp [hq] at hd'
      have hfuel : 2 * (jsTrim (String.mk (c :: cs))).data.length + 2
          = (2 * cs.length + 3) + 1 := by
        rw [ht']
        simp [List.length_cons]
        omega
      rw [hfuel, show (String.mk (c :: cs)).data = c :: cs from rfl] at hpv
      simp only [parseValue, hskip] at hpv
      split_ifs at hpv with h1 h2 h3 h4 h5 h6 h7
      · exact looksLikeJSON_of_head3 rfl hstart (Or.inl h1)
      · exact looksLikeJSON_of_head3 rfl hstart (Or.inr (Or.inl h2))
      · exact looksLikeJSON_of_head3 rfl hstart (Or.inr (Or.inr h3))
      · subst h4
        split at hpv
        · rename_i r
          simp only [Except.ok.injEq, Prod.mk.injEq] at hpv
          obtain ⟨-, hrest⟩ := hpv
          subst hrest
          have hr : r = [] := ws_suffix_nil ['r', 'u', 'e'] rfl hend hws
          subst hr
          decide
        · simp at hpv
      · subst h5
        split at hpv
        · rename_i r
          simp only [Except.ok.injEq, Prod.mk.injEq] at hpv
          obtain ⟨-, hrest⟩ := hpv
          subst hrest
          have hr : r = [] := ws_suffix_nil ['a', 'l', 's', 'e'] rfl hend hws
          subst hr
          decide
        · simp at hpv
      · subst h6
        split at hpv
        · rename_i r
          simp only [Except.ok.injEq, Prod.mk.injEq] at hpv
          obtain ⟨-, hrest⟩ := hpv
          subst hrest
          have hr : r = [] := ws_suffix_nil ['u', 'l', 'l'] rfl hend hws
          subst hr
          decide
        · simp at hpv
      · rcases h7 with h7 | h7
        · subst h7
          rcases cs with _ | ⟨d, cs'⟩
          · simp [numToken] at hpv
          · by_cases hdig : d.isDigit = true
            · exact looksLikeJSON_of_negDigit hstart (by simp [negDigitTest, hdig])
            · simp [numToken, hdig] at hpv
        · have hne : c ≠ '-' := by
            intro e
            rw [e] at h7
            exact absurd h7 (by decide)
          refine looksLikeJSON_of_negDigit hstart ?_
          cases cs with
          | nil => simp [negDigitTest, h7]
          | cons e2 cs2 => simp [negDigitTest, hne, h7]

/-!
### Whitespace context and truncation lemmas for the decoder

The decoder never inspects text past the value it reads except to check
that only whitespace follows, so decoding is insensitive to surrounding
whitespace.  The lemmas below make that precise: every successful parse
splits its input into consumed text ending in a non-blank character plus
the remainder, and re-running the parser on the consumed text followed by
any context that cannot extend its final token yields the same value with
that context as the remainder.  From this, a text the decoder accepts is
still accepted after `jsTrim`, which is what connects `extractAndParse`
(decoding the trimmed text) to decoding the original text.
-/

/-- `takeWhile` over an appended context whose head fails the predicate
stops within the left part. -/
theorem takeWhile_append_stable {p : Char → Bool} {q : List Char}
    (hq : ∀ a, q.head? = some a → p a = false) :
    ∀ z : List Char, (z ++ q).takeWhile p = z.takeWhile p := by
  intro z
  induction z with
  | nil =>
    rw [List.nil_append, List.takeWhile_nil]
    exact takeWhile_eq_nil_of_head? hq
  | cons a z ih =>
    by_cases ha : p a = true
    · rw [List.cons_append, List.takeWhile_cons_of_pos ha, List.takeWhile_cons_of_pos ha, ih]
    · rw [List.cons_append, List.takeWhile_cons_of_neg ha, List.takeWhile_cons_of_neg ha]

/-- `dropWhile` over an appended context whose head fails the predicate
leaves the context in place. -/
theorem dropWhile_append_stable {p : Char → Bool} {q : List Char}
    (hq : ∀ a, q.head? = some a → p a = false) :
    ∀ z : List Char, (z ++ q).dropWhile p = z.dropWhile p ++ q := by
  intro z
  induction z with
  | nil =>
    rw [List.nil_append, List.dropWhile_nil, List.nil_append]
    exact dropWhile_eq_self_of_head? hq
  | cons a z ih =>
    by_cases ha : p a = true
    · rw [List.cons_append, List.dropWhile_cons_of_pos ha, List.dropWhile_cons_of_pos ha, ih]
    · rw [List.cons_append, List.dropWhile_cons_of_neg ha, List.dropWhile_cons_of_neg ha,
        List.cons_append]

/-- Leading whitespace on the left of an append is skipped. -/
theorem skipWs_append_all {w x : List Char} (hw : ∀ c ∈ w, jsonWs c = true) :
    skipWs (w ++ x) = skipWs x :=
  List.dropWhile_append_of_pos hw

/-- A list is its whitespace prefix followed by `skipWs` of itself. -/
theorem skipWs_split (l : List Char) : l = l.takeWhile jsonWs ++ skipWs l :=
  (List.takeWhile_append_dropWhile jsonWs l).symm

/-- Characters of the whitespace prefix are whitespace. -/
theorem ws_take_mem {l : List Char} : ∀ c ∈ l.takeWhile jsonWs, jsonWs c = true :=
  fun _ hc => List.mem_takeWhile_imp hc

/-- `skipWs` keeps a list headed by a non-blank character. -/
theorem skipWs_cons_neg {c : Char} (x : List Char) (hc : jsonWs c = false) :
    skipWs (c :: x) = c :: x :=
  List.dropWhile_cons_of_neg (by simp [hc])

/-- JavaScript whitespace subsumes JSON whitespace, contrapositive form. -/
theorem jsonWs_eq_false_of_jsWs {c : Char} (h : jsWs c = false) : jsonWs c = false := by
  by_contra hh
  rw [Bool.not_eq_false] at hh
  rw [jsWs_of_jsonWs hh] at h
  cases h

/-- Dropping a whitespace suffix from text ending in a non-blank character
recovers exactly that text. -/
theorem rdropWhile_append_ws {m q : List Char} {lc : Char}
    (hq : ∀ c ∈ q, jsWs c = true) (hm : m.getLast? = some lc) (hlc : jsWs lc = false) :
    (m ++ q).rdropWhile jsWs = m := by
  rw [List.rdropWhile, List.reverse_append,
    List.dropWhile_append_of_pos (fun a ha => hq a (List.mem_reverse.mp ha)),
    dropWhile_eq_self_of_head? ?_, List.reverse_reverse]
  intro a ha
  rw [List.head?_reverse, hm] at ha
  obtain rfl := Option.some.inj ha
  exact hlc

/-- The empty context is safe after any token. -/
theorem safeAfter_nil : safeAfter [] := fun _ ha => Option.noConfusion ha

/-- A context headed by whitespace or a structural character cannot extend
a number token. -/
theorem safeAfter_of_head {r : List Char}
    (h : ∀ a, r.head? = some a →
      jsonWs a = true ∨ a = ',' ∨ a = '}' ∨ a = ']' ∨ a = ':') : safeAfter r := by
  intro a ha
  rcases h a ha with hw | hx | hx | hx | hx
  · simp only [jsonWs, Bool.or_eq_true, decide_eq_true_eq] at hw
    rcases hw with ((hw | hw) | hw) | hw <;> subst hw <;>
      exact ⟨by decide, by decide, by decide, by decide⟩
  all_goals subst hx
  all_goals exact ⟨by decide, by decide, by decide, by decide⟩

/-- The last element of an append with a right part ending in `a`. -/
theorem getLast?_append_right {l₁ l₂ : List Char} {a : Char}
    (h : l₂.getLast? = some a) : (l₁ ++ l₂).getLast? = some a := by
  rw [List.getLast?_append, h]
  rfl

/-- A successful string-body parse consumes text ending at the closing
quote, and re-runs identically on that text followed by any context: the
body scan never reads past the quote that ends it. -/
theorem strBody_extend : ∀ (n : Nat) (l : List Char), l.length ≤ n →
    ∀ (acc : List Char) (str : String) (rest : List Char),
    strBody acc l = .ok (str, rest) →
    ∃ m, l = m ++ rest ∧ m.getLast? = some dqc ∧
      ∀ X, strBody acc (m ++ X) = .ok (str, X) := by
  intro n
  induction n with
  | zero =>
    intro l hl acc str rest h
    obtain rfl : l = [] := List.length_eq_zero.mp (Nat.le_zero.mp hl)
    rw [strBody.eq_def] at h
    simp at h
  | succ n ih =>
    intro l hl acc str rest h
    rcases l with _ | ⟨c, l0⟩
    · rw [strBody.eq_def] at h
      simp at h
    · rw [strBody.eq_def] at h
      dsimp only [] at h
      rcases eq_or_ne c dqc with hdq | hdq
      · subst hdq
        rw [if_pos rfl] at h
        simp only [Except.ok.injEq, Prod.mk.injEq] at h
        obtain ⟨hstr, hrest⟩ := h
        subst hstr
        subst hrest
        refine ⟨[dqc], rfl, rfl, fun X => ?_⟩
        rw [show ([dqc] : List Char) ++ X = dqc :: X from rfl, strBody.eq_def]
        dsimp only []
        rw [if_pos rfl]
      · rw [if_neg hdq] at h
        rcases eq_or_ne c bsc with hbs | hbs
        · subst hbs
          rw [if_pos rfl] at h
          rcases l0 with _ | ⟨e, r2⟩
          · simp at h
          · dsimp only [] at h
            simp only [List.length_cons] at hl
            split_ifs at h with he1 he2 he3 he4 he5 he6 he7 he8 he9
            · subst he1
              obtain ⟨m', hm1, hm2, hm3⟩ := ih r2 (by omega) _ _ _ h
              refine ⟨[bsc, dqc] ++ m', by simp [hm1], getLast?_append_right hm2,
                fun X => ?_⟩
              rw [show ([bsc, dqc] ++ m') ++ X = bsc :: dqc :: (m' ++ X) by simp,
                strBody.eq_def]
              dsimp only []
              rw [if_neg (by decide), if_pos rfl, if_pos rfl]
              exact hm3 X
            · subst he2
              obtain ⟨m', hm1, hm2, hm3⟩ := ih r2 (by omega) _ _ _ h
              refine ⟨[bsc, bsc] ++ m', by simp [hm1], getLast?_append_right hm2,
                fun X => ?_⟩
              rw [show ([bsc, bsc] ++ m') ++ X = bsc :: bsc :: (m' ++ X) by simp,
                strBody.eq_def]
              dsimp only []
              rw [if_neg (by decide), if_pos rfl, if_neg (by decide), if_pos rfl]
              exact hm3 X
            · subst he3
              obtain ⟨m', hm1, hm2, hm3⟩ := ih r2 (by omega) _ _ _ h
              refine ⟨[bsc, '/'] ++ m', by simp [hm1], getLast?_append_right hm2,
                fun X => ?_⟩
              rw [show ([bsc, '/'] ++ m') ++ X = bsc :: '/' :: (m' ++ X) by simp,
                strBody.eq_def]
              dsimp only []
              rw [if_neg (by decide), if_pos rfl, if_neg (by decide), if_neg (by decide),
                if_pos rfl]
              exact hm3 X
            · subst he4
              obtain ⟨m', hm1, hm2, hm3⟩ := ih r2 (by omega) _ _ _ h
              refine ⟨[bsc, 'b'] ++ m', by simp [hm1], getLast?_append_right hm2,
                fun X => ?_⟩
              rw [show ([bsc, 'b'] ++ m') ++ X = bsc :: 'b' :: (m' ++ X) by simp,
                strBody.eq_def]
              dsimp only []
              rw [if_neg (by decide), if_pos rfl, if_neg (by decide), if_neg (by decide),
                if_neg (by decide), if_pos rfl]
              exact hm3 X
            · subst he5
              obtain ⟨m', hm1, hm2, hm3⟩ := ih r2 (by omega) _ _ _ h
              refine ⟨[bsc, 'f'] ++ m', by simp [hm1], getLast?_append_right hm2,
                fun X => ?_⟩
              rw [show ([bsc, 'f'] ++ m') ++ X = bsc :: 'f' :: (m' ++ X) by simp,
                strBody.eq_def]
              dsimp only []
              rw [if_neg (by decide), if_pos rfl, if_neg (by decide), if_neg (by decide),
                if_neg (by decide), if_neg (by decide), if_pos rfl]
              exact hm3 X
            · subst he6
              obtain ⟨m', hm1, hm2, hm3⟩ := ih r2 (by omega) _ _ _ h
              refine ⟨[bsc, 'n'] ++ m', by simp [hm1], getLast?_append_right hm2,
                fun X => ?_⟩
              rw [show ([bsc, 'n'] ++ m') ++ X = bsc :: 'n' :: (m' ++ X) by simp,
                strBody.eq_def]
              dsimp only []
              rw [if_neg (by decide), if_pos rfl, if_neg (by decide), if_neg (by decide),
                if_neg (by decide), if_neg (by decide), if_neg (by decide), if_pos rfl]
              exact hm3 X
            · subst he7
              obtain ⟨m', hm1, hm2, hm3⟩ := ih r2 (by omega) _ _ _ h
              refine ⟨[bsc, 'r'] ++ m', by simp [hm1], getLast?_append_right hm2,
                fun X => ?_⟩
              rw [show ([bsc, 'r'] ++ m') ++ X = bsc :: 'r' :: (m' ++ X) by simp,
                strBody.eq_def]
              dsimp only []
              rw [if_neg (by decide), if_pos rfl, if_neg (by decide), if_neg (by decide),
                if_neg (by decide), if_neg (by decide), if_neg (by decide),
                if_neg (by decide), if_pos rfl]
              exact hm3 X
            · subst he8
              obtain ⟨m', hm1, hm2, hm3⟩ := ih r2 (by omega) _ _ _ h
              refine ⟨[bsc, 't'] ++ m', by simp [hm1], getLast?_append_right hm2,
                fun X => ?_⟩
              rw [show ([bsc, 't'] ++ m') ++ X = bsc :: 't' :: (m' ++ X) by simp,
                strBody.eq_def]
              dsimp only []
              rw [if_neg (by decide), if_pos rfl, if_neg (by decide), if_neg (by decide),
                if_neg (by decide), if_neg (by decide), if_neg (by decide),
                if_neg (by decide), if_neg (by decide), if_pos rfl]
              exact hm3 X
            · subst he9
              split at h <;> try exact absurd h (by simp)
              rename_i hx1 hx2 hx3 hx4 r3
              split at h <;> try exact absurd h (by simp)
              rename_i a b c4 d ha hb hc hd4
              simp only [List.length_cons] at hl
              obtain ⟨m', hm1, hm2, hm3⟩ := ih r3 (by omega) _ _ _ h
              refine ⟨[bsc, 'u', hx1, hx2, hx3, hx4] ++ m', by simp [hm1],
                getLast?_append_right hm2, fun X => ?_⟩
              rw [show ([bsc, 'u', hx1, hx2, hx3, hx4] ++ m') ++ X
                  = bsc :: 'u' :: hx1 :: hx2 :: hx3 :: hx4 :: (m' ++ X) by simp,
                strBody.eq_def]
              dsimp only []
              rw [if_neg (by decide), if_pos rfl, if_neg (by decide), if_neg (by decide),
                if_neg (by decide), if_neg (by decide), if_neg (by decide),
                if_neg (by decide), if_neg (by decide), if_neg (by decide), if_pos rfl,
                ha, hb, hc, hd4]
              dsimp only []
              exact hm3 X
        · rw [if_neg hbs] at h
          by_cases hctl : c.toNat < 32
          · rw [if_pos hctl] at h
            simp at h
          · rw [if_neg hctl] at h
            simp only [List.length_cons] at hl
            obtain ⟨m', hm1, hm2, hm3⟩ := ih l0 (by omega) _ _ _ h
            refine ⟨[c] ++ m', by simp [hm1], getLast?_append_right hm2, fun X => ?_⟩
            rw [show ([c] ++ m') ++ X = c :: (m' ++ X) by simp, strBody.eq_def]
            dsimp only []
            rw [if_neg hdq, if_neg hbs, if_neg hctl]
            exact hm3 X

/-- A list of characters all satisfying the predicate is kept whole by
`takeWhile`. -/
theorem takeWhile_all {p : Char → Bool} {z : List Char} (hz : ∀ c ∈ z, p c = true) :
    z.takeWhile p = z := by
  induction z with
  | nil => rfl
  | cons a z ih =>
    rw [List.takeWhile_cons_of_pos (hz a (List.mem_cons_self a z)),
      ih fun c hc => hz c (List.mem_cons_of_mem a hc)]

/-- A list of characters all satisfying the predicate is erased by
`dropWhile`. -/
theorem dropWhile_all {p : Char → Bool} {z : List Char} (hz : ∀ c ∈ z, p c = true) :
    z.dropWhile p = [] :=
  List.dropWhile_eq_nil_iff.mpr hz

/-- Heads across an appended pair, when the left part forbids digits and
dots and the right part is a safe context. -/
theorem head_not_digit_dot {mE X : List Char}
    (hE : ∀ a, mE.head? = some a → a.isDigit = false ∧ a ≠ '.')
    (hs : safeAfter X) :
    ∀ a, (mE ++ X).head? = some a → a.isDigit = false ∧ a ≠ '.' := by
  intro a ha
  rcases mE with _ | ⟨b, mE'⟩
  · exact ⟨(hs a ha).1, (hs a ha).2.1⟩
  · exact hE a ha

/-- The last character of a nonempty digit run followed by a tail that is
either empty or ends in a digit. -/
theorem last_digit_concat {z mE : List Char} (hz : ∀ c ∈ z, Char.isDigit c = true)
    (hzne : z ≠ [])
    (hE : mE = [] ∨ ∃ lc, mE.getLast? = some lc ∧ lc.isDigit = true) :
    ∃ lc, (z ++ mE).getLast? = some lc ∧ lc.isDigit = true := by
  rcases hE with rfl | ⟨lc, h1, h2⟩
  · refine ⟨z.getLast hzne, ?_, hz _ (List.getLast_mem hzne)⟩
    rw [List.append_nil]
    exact List.getLast?_eq_getLast z hzne
  · exact ⟨lc, getLast?_append_right h1, h2⟩

/-- The optional-exponent reader of the number token consumes a stretch
that cannot begin with a digit or a dot, ends in a digit when nonempty,
and re-runs identically before any safe context. -/
theorem numTail_extend {sign : Int} {iD fD r2 : List Char} {v : JSONValue}
    {rest : List Char} (h : numToken.numTail sign iD fD r2 = .ok (v, rest)) :
    ∃ mE, r2 = mE ++ rest ∧
      (∀ a, mE.head? = some a → a.isDigit = false ∧ a ≠ '.') ∧
      (mE = [] ∨ ∃ lc, mE.getLast? = some lc ∧ lc.isDigit = true) ∧
      ∀ X, safeAfter X → numToken.numTail sign iD fD (mE ++ X) = .ok (v, X) := by
  rcases r2 with _ | ⟨ec, rr⟩
  · simp only [numToken.numTail, Except.ok.injEq, Prod.mk.injEq] at h
    obtain ⟨hv, hrest⟩ := h
    subst hrest
    refine ⟨[], rfl, fun a ha => Option.noConfusion ha, Or.inl rfl, fun X hs => ?_⟩
    rcases X with _ | ⟨x, X'⟩
    · simp only [numToken.numTail, List.nil_append, Except.ok.injEq, Prod.mk.injEq]
      exact ⟨hv, trivial⟩
    · have hxe : ¬ (x = 'e' ∨ x = 'E') := by
        rcases hs x rfl with ⟨-, -, h3, h4⟩
        rintro (rfl | rfl)
        · exact h3 rfl
        · exact h4 rfl
      simp only [numToken.numTail, List.nil_append]
      rw [if_neg hxe]
      simp only [Except.ok.injEq, Prod.mk.injEq]
      exact ⟨hv, trivial⟩
  · by_cases hE : ec = 'e' ∨ ec = 'E'
    · have hecd : ec.isDigit = false ∧ ec ≠ '.' := by
        rcases hE with rfl | rfl
        · exact ⟨by decide, by decide⟩
        · exact ⟨by decide, by decide⟩
      simp only [numToken.numTail] at h
      rw [if_pos hE] at h
      rcases rr with _ | ⟨s2, rr3⟩
      · simp at h
      · dsimp only [] at h
        rcases eq_or_ne s2 '+' with hp | hp
        · subst hp
          rw [if_pos rfl] at h
          by_cases hev : ((rr3.takeWhile Char.isDigit).isEmpty = true)
          · rw [if_pos hev] at h
            simp at h
          · rw [if_neg hev] at h
            dsimp only [] at h
            simp only [Except.ok.injEq, Prod.mk.injEq] at h
            obtain ⟨hv, hrest⟩ := h
            have hdig : ∀ c ∈ rr3.takeWhile Char.isDigit, Char.isDigit c = true :=
              fun c hc => List.mem_takeWhile_imp hc
            have hne : rr3.takeWhile Char.isDigit ≠ [] := by
              intro hz
              rw [hz] at hev
              exact hev rfl
            refine ⟨ec :: '+' :: rr3.takeWhile Char.isDigit, ?_, ?_, ?_, ?_⟩
            · rw [← hrest]
              simp [List.takeWhile_append_dropWhile]
            · intro a ha
              obtain rfl := Option.some.inj ha
              exact hecd
            · refine Or.inr ⟨(rr3.takeWhile Char.isDigit).getLast hne, ?_, ?_⟩
              · rw [show ec :: '+' :: rr3.takeWhile Char.isDigit
                    = [ec, '+'] ++ rr3.takeWhile Char.isDigit from rfl]
                exact getLast?_append_right (List.getLast?_eq_getLast _ hne)
              · exact hdig _ (List.getLast_mem hne)
            · intro X hs
              have hbnd : ∀ a, X.head? = some a → Char.isDigit a = false :=
                fun a ha => (hs a ha).1
              have htw : ((rr3.takeWhile Char.isDigit) ++ X).takeWhile Char.isDigit
                  = rr3.takeWhile Char.isDigit := by
                rw [takeWhile_append_stable hbnd, takeWhile_all hdig]
              have hdw : ((rr3.takeWhile Char.isDigit) ++ X).dropWhile Char.isDigit = X := by
                rw [dropWhile_append_stable hbnd, dropWhile_all hdig, List.nil_append]
              simp only [numToken.numTail, List.cons_append, if_true]
              rw [if_pos hE]
              rw [htw, hdw, if_neg hev]
              dsimp only []
              simp only [Except.ok.injEq, Prod.mk.injEq]
              exact ⟨hv, trivial⟩
        · rcases eq_or_ne s2 '-' with hm | hm
          · subst hm
            rw [if_neg hp, if_pos rfl] at h
            by_cases hev : ((rr3.takeWhile Char.isDigit).isEmpty = true)
            · rw [if_pos hev] at h
              simp at h
            · rw [if_neg hev] at h
              dsimp only [] at h
              simp only [Except.ok.injEq, Prod.mk.injEq] at h
              obtain ⟨hv, hrest⟩ := h
              have hdig : ∀ c ∈ rr3.takeWhile Char.isDigit, Char.isDigit c = true :=
                fun c hc => List.mem_takeWhile_imp hc
              have hne : rr3.takeWhile Char.isDigit ≠ [] := by
                intro hz
                rw [hz] at hev
                exact hev rfl
              refine ⟨ec :: '-' :: rr3.takeWhile Char.isDigit, ?_, ?_, ?_, ?_⟩
              · rw [← hrest]
                simp [List.takeWhile_append_dropWhile]
              · intro a ha
                obtain rfl := Option.some.inj ha
                exact hecd
              · refine Or.inr ⟨(rr3.takeWhile Char.isDigit).getLast hne, ?_, ?_⟩
                · rw [show ec :: '-' :: rr3.takeWhile Char.isDigit
                      = [ec, '-'] ++ rr3.takeWhile Char.isDigit from rfl]
                  exact getLast?_append_right (List.getLast?_eq_getLast _ hne)
                · exact hdig _ (List.getLast_mem hne)
              · intro X hs
                have hbnd : ∀ a, X.head? = some a → Char.isDigit a = false :=
                  fun a ha => (hs a ha).1
                have htw : ((rr3.takeWhile Char.isDigit) ++ X).takeWhile Char.isDigit
                    = rr3.takeWhile Char.isDigit := by
                  rw [takeWhile_append_stable hbnd, takeWhile_all hdig]
                have hdw : ((rr3.takeWhile Char.isDigit) ++ X).dropWhile Char.isDigit
                    = X := by
                  rw [dropWhile_append_stable hbnd, dropWhile_all hdig, List.nil_append]
                simp only [numToken.numTail, List.cons_append, if_true]
                rw [if_pos hE]
                rw [if_neg hp]
                dsimp only []
                rw [htw, hdw, if_neg hev]
                dsimp only []
                simp only [Except.ok.injEq, Prod.mk.injEq]
                exact ⟨hv, trivial⟩
          · rw [if_neg hp, if_neg hm] at h
            by_cases hs2 : s2.isDigit = true
            · have htws : (s2 :: rr3).takeWhile Char.isDigit
                  = s2 :: rr3.takeWhile Char.isDigit := List.takeWhile_cons_of_pos hs2
              by_cases hev : (((s2 :: rr3).takeWhile Char.isDigit).isEmpty = true)
              · rw [if_pos hev] at h
                simp at h
              · rw [if_neg hev] at h
                dsimp only [] at h
                simp only [Except.ok.injEq, Prod.mk.injEq] at h
                obtain ⟨hv, hrest⟩ := h
                have hdig : ∀ c ∈ (s2 :: rr3).takeWhile Char.isDigit,
                    Char.isDigit c = true := fun c hc => List.mem_takeWhile_imp hc
                have hne : (s2 :: rr3).takeWhile Char.isDigit ≠ [] := by
                  rw [htws]
                  exact List.cons_ne_nil _ _
                refine ⟨ec :: (s2 :: rr3).takeWhile Char.isDigit, ?_, ?_, ?_, ?_⟩
                · rw [← hrest]
                  simp [List.takeWhile_append_dropWhile]
                · intro a ha
                  obtain rfl := Option.some.inj ha
                  exact hecd
                · refine Or.inr ⟨((s2 :: rr3).takeWhile Char.isDigit).getLast hne, ?_, ?_⟩
                  · rw [show ec :: (s2 :: rr3).takeWhile Char.isDigit
                        = [ec] ++ (s2 :: rr3).takeWhile Char.isDigit from rfl]
                    exact getLast?_append_right (List.getLast?_eq_getLast _ hne)
                  · exact hdig _ (List.getLast_mem hne)
                · intro X hs
                  have hbnd : ∀ a, X.head? = some a → Char.isDigit a = false :=
                    fun a ha => (hs a ha).1
                  have htw : (((s2 :: rr3).takeWhile Char.isDigit) ++ X).takeWhile
                      Char.isDigit = (s2 :: rr3).takeWhile Char.isDigit := by
                    rw [takeWhile_append_stable hbnd, takeWhile_all hdig]
                  have hdw : (((s2 :: rr3).takeWhile Char.isDigit) ++ X).dropWhile
                      Char.isDigit = X := by
                    rw [dropWhile_append_stable hbnd, dropWhile_all hdig, List.nil_append]
                  simp only [numToken.numTail, List.cons_append, if_true]
                  rw [if_pos hE, htws, List.cons_append]
                  dsimp only []
                  rw [if_neg hp, if_neg hm]
                  dsimp only []
                  rw [← List.cons_append, ← htws, htw, hdw, if_neg hev]
                  dsimp only []
                  simp only [Except.ok.injEq, Prod.mk.injEq]
                  exact ⟨hv, trivial⟩
            · rw [List.takeWhile_cons_of_neg (by simp [hs2])] at h
              simp at h
    · simp only [numToken.numTail] at h
      rw [if_neg hE] at h
      dsimp only [] at h
      simp only [Except.ok.injEq, Prod.mk.injEq] at h
      obtain ⟨hv, hrest⟩ := h
      refine ⟨[], by rw [hrest]; rfl, fun a ha => Option.noConfusion ha, Or.inl rfl,
        fun X hs => ?_⟩
      rcases X with _ | ⟨x, X'⟩
      · simp only [numToken.numTail, List.nil_append, Except.ok.injEq, Prod.mk.injEq]
        exact ⟨hv, trivial⟩
      · have hxe : ¬ (x = 'e' ∨ x = 'E') := by
          rcases hs x rfl with ⟨-, -, h3, h4⟩
          rintro (rfl | rfl)
          · exact h3 rfl
          · exact h4 rfl
        simp only [numToken.numTail, List.nil_append]
        rw [if_neg hxe]
        simp only [Except.ok.injEq, Prod.mk.injEq]
        exact ⟨hv, trivial⟩

/-- A successful number token consumes a stretch of text ending in a digit
and re-runs identically on that stretch followed by any safe context. -/
theorem numToken_extend {l : List Char} {v : JSONValue} {rest : List Char}
    (h : numToken l = .ok (v, rest)) :
    ∃ m lc, l = m ++ rest ∧ m.getLast? = some lc ∧ lc.isDigit = true ∧
      ∀ X, safeAfter X → numToken (m ++ X) = .ok (v, X) := by
  rcases l with _ | ⟨c, r⟩
  · simp [numToken] at h
  · rcases eq_or_ne c '-' with hneg | hneg
    · subst hneg
      simp only [numToken, if_true] at h
      rcases r with _ | ⟨d, r'⟩
      · simp at h
      · dsimp only [] at h
        by_cases hd : d.isDigit = true
        · rw [if_pos hd] at h
          split at h
          · simp at h
          · rename_i hz
            split at h
            · rename_i rr hdot
              split at h
              · simp at h
              · rename_i hfr
                obtain ⟨mE, hE1, hE2, hE3, hE4⟩ := numTail_extend h
                have hfne : rr.takeWhile Char.isDigit ≠ [] := by
                  intro hzz
                  rw [hzz] at hfr
                  exact hfr rfl
                have hdigF : ∀ x ∈ rr.takeWhile Char.isDigit, Char.isDigit x = true :=
                  fun x hx => List.mem_takeWhile_imp hx
                have hdigI : ∀ x ∈ (d :: r').takeWhile Char.isDigit,
                    Char.isDigit x = true := fun x hx => List.mem_takeWhile_imp hx
                obtain ⟨lc, hL, hLd⟩ := last_digit_concat hdigF hfne hE3
                refine ⟨'-' :: ((d :: r').takeWhile Char.isDigit ++
                  ('.' :: (rr.takeWhile Char.isDigit ++ mE))), lc, ?_, ?_, hLd,
                  fun X hs => ?_⟩
                · simp only [List.cons_append, List.append_assoc]
                  rw [← hE1, List.takeWhile_append_dropWhile, ← hdot,
                    List.takeWhile_append_dropWhile]
                · rw [show '-' :: ((d :: r').takeWhile Char.isDigit ++
                      ('.' :: (rr.takeWhile Char.isDigit ++ mE)))
                      = ('-' :: (d :: r').takeWhile Char.isDigit ++ ['.']) ++
                        (rr.takeWhile Char.isDigit ++ mE) by simp]
                  exact getLast?_append_right hL
                · have hq1 : ∀ a, ('.' :: (rr.takeWhile Char.isDigit ++ (mE ++ X))).head?
                      = some a → Char.isDigit a = false := by
                    intro a ha
                    obtain rfl := Option.some.inj ha
                    decide
                  have hq2 : ∀ a, (mE ++ X).head? = some a → Char.isDigit a = false :=
                    fun a ha => (head_not_digit_dot hE2 hs a ha).1
                  have hTW : ((d :: r').takeWhile Char.isDigit ++
                      ('.' :: (rr.takeWhile Char.isDigit ++ (mE ++ X)))).takeWhile
                        Char.isDigit = (d :: r').takeWhile Char.isDigit := by
                    rw [takeWhile_append_stable hq1, takeWhile_all hdigI]
                  have hDW : ((d :: r').takeWhile Char.isDigit ++
                      ('.' :: (rr.takeWhile Char.isDigit ++ (mE ++ X)))).dropWhile
                        Char.isDigit = '.' :: (rr.takeWhile Char.isDigit ++ (mE ++ X)) := by
                    rw [dropWhile_append_stable hq1, dropWhile_all hdigI, List.nil_append]
                  have hFTW : (rr.takeWhile Char.isDigit ++ (mE ++ X)).takeWhile
                      Char.isDigit = rr.takeWhile Char.isDigit := by
                    rw [takeWhile_append_stable hq2, takeWhile_all hdigF]
                  have hFDW : (rr.takeWhile Char.isDigit ++ (mE ++ X)).dropWhile
                      Char.isDigit = mE ++ X := by
                    rw [dropWhile_append_stable hq2, dropWhile_all hdigF, List.nil_append]
                  have hconsT : (d :: r').takeWhile Char.isDigit ++
                      ('.' :: (rr.takeWhile Char.isDigit ++ (mE ++ X)))
                      = d :: (r'.takeWhile Char.isDigit ++
                        ('.' :: (rr.takeWhile Char.isDigit ++ (mE ++ X)))) := by
                    rw [List.takeWhile_cons_of_pos hd, List.cons_append]
                  simp only [List.cons_append, List.append_assoc]
                  simp only [numToken, if_true]
                  rw [hTW, hDW, hconsT]
                  dsimp only []
                  rw [if_pos hd, if_neg hz]
                  simp only [hFTW, hFDW, if_neg hfr]
                  exact hE4 X hs
            · rename_i hcatch
              obtain ⟨mE, hE1, hE2, hE3, hE4⟩ := numTail_extend h
              have hdigI : ∀ x ∈ (d :: r').takeWhile Char.isDigit,
                  Char.isDigit x = true := fun x hx => List.mem_takeWhile_imp hx
              have hine : (d :: r').takeWhile Char.isDigit ≠ [] := by
                rw [List.takeWhile_cons_of_pos hd]
                exact List.cons_ne_nil _ _
              obtain ⟨lc, hL, hLd⟩ := last_digit_concat hdigI hine hE3
              refine ⟨'-' :: ((d :: r').takeWhile Char.isDigit ++ mE), lc, ?_, ?_, hLd,
                fun X hs => ?_⟩
              · simp only [List.cons_append, List.append_assoc]
                rw [← hE1, List.takeWhile_append_dropWhile]
              · rw [show '-' :: ((d :: r').takeWhile Char.isDigit ++ mE)
                    = ['-'] ++ ((d :: r').takeWhile Char.isDigit ++ mE) from rfl]
                exact getLast?_append_right hL
              · have hq2 : ∀ a, (mE ++ X).head? = some a → Char.isDigit a = false :=
                  fun a ha => (head_not_digit_dot hE2 hs a ha).1
                have hTW : ((d :: r').takeWhile Char.isDigit ++ (mE ++ X)).takeWhile
                    Char.isDigit = (d :: r').takeWhile Char.isDigit := by
                  rw [takeWhile_append_stable hq2, takeWhile_all hdigI]
                have hDW : ((d :: r').takeWhile Char.isDigit ++ (mE ++ X)).dropWhile
                    Char.isDigit = mE ++ X := by
                  rw [dropWhile_append_stable hq2, dropWhile_all hdigI, List.nil_append]
                have hconsT : (d :: r').takeWhile Char.isDigit ++ (mE ++ X)
                    = d :: (r'.takeWhile Char.isDigit ++ (mE ++ X)) := by
                  rw [List.takeWhile_cons_of_pos hd, List.cons_append]
                simp only [List.cons_append, List.append_assoc]
                simp only [numToken, if_true]
                rw [hTW, hDW, hconsT]
                dsimp only []
                rw [if_pos hd, if_neg hz]
                split
                · rename_i rr2 hdot2
                  exfalso
                  rcases mE with _ | ⟨b, mE'⟩
                  · rw [List.nil_append] at hdot2
                    exact (hs '.' (by rw [hdot2]; rfl)).2.1 rfl
                  · have hbd : b = '.' := by
                      have : b :: (mE' ++ X) = '.' :: rr2 := hdot2
                      injection this with h1 h2
                    exact (hE2 b rfl).2 hbd
                · rename_i hcatch2
                  have := hE4 X hs
                  exact this
        · rw [if_neg hd] at h
          simp at h
    · simp only [numToken] at h
      rw [if_neg hneg] at h
      dsimp only [] at h
      by_cases hd : c.isDigit = true
      · rw [if_pos hd] at h
        split at h
        · simp at h
        · rename_i hz
          split at h
          · rename_i rr hdot
            split at h
            · simp at h
            · rename_i hfr
              obtain ⟨mE, hE1, hE2, hE3, hE4⟩ := numTail_extend h
              have hfne : rr.takeWhile Char.isDigit ≠ [] := by
                intro hzz
                rw [hzz] at hfr
                exact hfr rfl
              have hdigF : ∀ x ∈ rr.takeWhile Char.isDigit, Char.isDigit x = true :=
                fun x hx => List.mem_takeWhile_imp hx
              have hdigI : ∀ x ∈ (c :: r).takeWhile Char.isDigit,
                  Char.isDigit x = true := fun x hx => List.mem_takeWhile_imp hx
              obtain ⟨lc, hL, hLd⟩ := last_digit_concat hdigF hfne hE3
              refine ⟨(c :: r).takeWhile Char.isDigit ++
                ('.' :: (rr.takeWhile Char.isDigit ++ mE)), lc, ?_, ?_, hLd,
                fun X hs => ?_⟩
              · simp only [List.cons_append, List.append_assoc]
                rw [← hE1, List.takeWhile_append_dropWhile, ← hdot,
                  List.takeWhile_append_dropWhile]
              · rw [show (c :: r).takeWhile Char.isDigit ++
                    ('.' :: (rr.takeWhile Char.isDigit ++ mE))
                    = ((c :: r).takeWhile Char.isDigit ++ ['.']) ++
                      (rr.takeWhile Char.isDigit ++ mE) by simp]
                exact getLast?_append_right hL
              · have hq1 : ∀ a, ('.' :: (rr.takeWhile Char.isDigit ++ (mE ++ X))).head?
                    = some a → Char.isDigit a = false := by
                  intro a ha
                  obtain rfl := Option.some.inj ha
                  decide
                have hq2 : ∀ a, (mE ++ X).head? = some a → Char.isDigit a = false :=
                  fun a ha => (head_not_digit_dot hE2 hs a ha).1
                have hTW : (c :: (r.takeWhile Char.isDigit ++
                    ('.' :: (rr.takeWhile Char.isDigit ++ (mE ++ X))))).takeWhile
                      Char.isDigit = (c :: r).takeWhile Char.isDigit := by
                  rw [List.takeWhile_cons_of_pos hd, takeWhile_append_stable hq1,
                    takeWhile_all (fun x hx => List.mem_takeWhile_imp hx),
                    List.takeWhile_cons_of_pos hd]
                have hDW : (c :: (r.takeWhile Char.isDigit ++
                    ('.' :: (rr.takeWhile Char.isDigit ++ (mE ++ X))))).dropWhile
                      Char.isDigit = '.' :: (rr.takeWhile Char.isDigit ++ (mE ++ X)) := by
                  rw [List.dropWhile_cons_of_pos hd, dropWhile_append_stable hq1,
                    dropWhile_all (fun x hx => List.mem_takeWhile_imp hx),
                    List.nil_append]
                have hFTW : (rr.takeWhile Char.isDigit ++ (mE ++ X)).takeWhile
                    Char.isDigit = rr.takeWhile Char.isDigit := by
                  rw [takeWhile_append_stable hq2, takeWhile_all hdigF]
                have hFDW : (rr.takeWhile Char.isDigit ++ (mE ++ X)).dropWhile
                    Char.isDigit = mE ++ X := by
                  rw [dropWhile_append_stable hq2, dropWhile_all hdigF, List.nil_append]
                have hconsT : (c :: r).takeWhile Char.isDigit ++
                    ('.' :: (rr.takeWhile Char.isDigit ++ (mE ++ X)))
                    = c :: (r.takeWhile Char.isDigit ++
                      ('.' :: (rr.takeWhile Char.isDigit ++ (mE ++ X)))) := by
                  rw [List.takeWhile_cons_of_pos hd, List.cons_append]
                simp only [List.cons_append, List.append_assoc]
                simp only [numToken]
                rw [hconsT]
                dsimp only []
                rw [if_neg hneg]
                dsimp only []
                rw [if_pos hd, hTW, if_neg hz, hDW]
                simp only [hFTW, hFDW, if_neg hfr]
                exact hE4 X hs
          · rename_i hcatch
            obtain ⟨mE, hE1, hE2, hE3, hE4⟩ := numTail_extend h
            have hdigI : ∀ x ∈ (c :: r).takeWhile Char.isDigit,
                Char.isDigit x = true := fun x hx => List.mem_takeWhile_imp hx
            have hine : (c :: r).takeWhile Char.isDigit ≠ [] := by
              rw [List.takeWhile_cons_of_pos hd]
              exact List.cons_ne_nil _ _
            obtain ⟨lc, hL, hLd⟩ := last_digit_concat hdigI hine hE3
            refine ⟨(c :: r).takeWhile Char.isDigit ++ mE, lc, ?_, ?_, hLd,
              fun X hs => ?_⟩
            · simp only [List.append_assoc]
              rw [← hE1, List.takeWhile_append_dropWhile]
            · exact hL
            · have hq2 : ∀ a, (mE ++ X).head? = some a → Char.isDigit a = false :=
                fun a ha => (head_not_digit_dot hE2 hs a ha).1
              have hTW : (c :: (r.takeWhile Char.isDigit ++ (mE ++ X))).takeWhile
                  Char.isDigit = (c :: r).takeWhile Char.isDigit := by
                rw [List.takeWhile_cons_of_pos hd, takeWhile_append_stable hq2,
                  takeWhile_all (fun x hx => List.mem_takeWhile_imp hx),
                  List.takeWhile_cons_of_pos hd]
              have hDW : (c :: (r.takeWhile Char.isDigit ++ (mE ++ X))).dropWhile
                  Char.isDigit = mE ++ X := by
                rw [List.dropWhile_cons_of_pos hd, dropWhile_append_stable hq2,
                  dropWhile_all (fun x hx => List.mem_takeWhile_imp hx), List.nil_append]
              have hconsT : (c :: r).takeWhile Char.isDigit ++ (mE ++ X)
                  = c :: (r.takeWhile Char.isDigit ++ (mE ++ X)) := by
                rw [List.takeWhile_cons_of_pos hd, List.cons_append]
              simp only [List.append_assoc]
              simp only [numToken]
              rw [hconsT]
              dsimp only []
              rw [if_neg hneg]
              dsimp only []
              rw [if_pos hd, hTW, if_neg hz, hDW]
              split
              · rename_i rr2 hdot2
                exfalso
                rcases mE with _ | ⟨b, mE'⟩
                · rw [List.nil_append] at hdot2
                  exact (hs '.' (by rw [hdot2]; rfl)).2.1 rfl
                · have hbd : b = '.' := by
                    have : b :: (mE' ++ X) = '.' :: rr2 := hdot2
                    injection this with h1 h2
                  exact (hE2 b rfl).2 hbd
              · rename_i hcatch2
                exact hE4 X hs
      · rw [if_neg hd] at h
        simp at h

/-- The value parser rejects the empty input at any fuel. -/
theorem parseValue_nil (fuel : Nat) : ∃ e, parseValue fuel [] = .error e := by
  cases fuel with
  | zero => exact ⟨_, rfl⟩
  | succ n => exact ⟨_, rfl⟩

/-- The member parser rejects the empty input at any fuel. -/
theorem parseMembers_nil (fuel : Nat) (acc : List (String × JSONValue)) :
    ∃ e, parseMembers fuel [] acc = .error e := by
  cases fuel with
  | zero => exact ⟨_, rfl⟩
  | succ n => exact ⟨_, rfl⟩

/-- The element parser rejects the empty input at any fuel. -/
theorem parseElements_nil (fuel : Nat) : ∃ e, parseElements fuel [] = .error e := by
  cases fuel with
  | zero => exact ⟨_, rfl⟩
  | succ n =>
    obtain ⟨e, he⟩ := parseValue_nil n
    exact ⟨e, by simp [parseElements, he]⟩

/-- The head left standing by `skipWs` is not whitespace. -/
theorem skipWs_head_not_ws : ∀ {x : List Char} {a : Char} {t : List Char},
    skipWs x = a :: t → jsonWs a = false := by
  intro x
  induction x with
  | nil =>
    intro a t h
    cases h
  | cons b x ih =>
    intro a t h
    by_cases hb : jsonWs b = true
    · rw [skipWs, List.dropWhile_cons_of_pos hb] at h
      exact ih h
    · rw [skipWs, List.dropWhile_cons_of_neg (by simp [hb])] at h
      injection h with h1 h2
      subst h1
      simpa using hb
/-- A whitespace run followed by a structural character is a safe context. -/
theorem safe_ws_comma {w rest2 : List Char} {b : Char}
    (hw : ∀ c ∈ w, jsonWs c = true)
    (hb : b = ',' ∨ b = '}' ∨ b = ']' ∨ b = ':') :
    safeAfter (w ++ b :: rest2) := by
  apply safeAfter_of_head
  intro a ha
  rcases w with _ | ⟨w0, wt⟩
  · rw [List.nil_append] at ha
    obtain rfl := Option.some.inj ha
    rcases hb with rfl | rfl | rfl | rfl
    · exact Or.inr (Or.inl rfl)
    · exact Or.inr (Or.inr (Or.inl rfl))
    · exact Or.inr (Or.inr (Or.inr (Or.inl rfl)))
    · exact Or.inr (Or.inr (Or.inr (Or.inr rfl)))
  · have haw : a = w0 := by simpa using ha.symm
    subst haw
    exact Or.inl (hw a (List.mem_cons_self a wt))

set_option maxHeartbeats 2000000 in
/-- Truncation and padding for the mutual fuel parser.  A successful parse
splits its input into consumed text (ending in a non-blank character) and
the remainder, and re-runs identically on the consumed text followed by
any context that cannot extend its final token (for members and elements
the consumed text ends in the closing delimiter, so any context works). -/
theorem parse_extend : ∀ fuel : Nat,
    (∀ l v rest, parseValue fuel l = .ok (v, rest) → ∃ m lc, l = m ++ rest ∧
      m.getLast? = some lc ∧ jsWs lc = false ∧
      ∀ X, safeAfter X → parseValue fuel (m ++ X) = .ok (v, X)) ∧
    (∀ l acc es rest, parseMembers fuel l acc = .ok (es, rest) → ∃ m, l = m ++ rest ∧
      m.getLast? = some '}' ∧ ∀ X, parseMembers fuel (m ++ X) acc = .ok (es, X)) ∧
    (∀ l vs rest, parseElements fuel l = .ok (vs, rest) → ∃ m, l = m ++ rest ∧
      m.getLast? = some ']' ∧ ∀ X, parseElements fuel (m ++ X) = .ok (vs, X)) := by
  intro fuel
  induction fuel with
  | zero =>
    refine ⟨fun l v rest h => ?_, fun l acc es rest h => ?_, fun l vs rest h => ?_⟩
    · simp [parseValue] at h
    · simp [parseMembers] at h
    · simp [parseElements] at h
  | succ fuel ih =>
    obtain ⟨ihV, ihM, ihE⟩ := ih
    refine ⟨fun l v rest h => ?_, fun l acc es rest h => ?_, fun l vs rest h => ?_⟩
    · -- parseValue
      simp only [parseValue] at h
      split at h
      · exact absurd h (by simp)
      · rename_i c rest1 heq
        have hL : l = l.takeWhile jsonWs ++ (c :: rest1) := by
          have h0 := skipWs_split l
          rw [heq] at h0
          exact h0
        have hcw : jsonWs c = false := skipWs_head_not_ws heq
        split_ifs at h with h1 h2 h3 h4 h5 h6 h7
        · -- c = '{'
          subst h1
          split at h
          · -- empty object
            rename_i r heq2
            simp only [Except.ok.injEq, Prod.mk.injEq] at h
            obtain ⟨hv, hr⟩ := h
            subst hv
            subst hr
            have hL1 : rest1 = rest1.takeWhile jsonWs ++ ('}' :: r) := by
              have h0 := skipWs_split rest1
              rw [heq2] at h0
              exact h0
            refine ⟨l.takeWhile jsonWs ++ '{' :: (rest1.takeWhile jsonWs ++ ['}']), '}',
              ?_, ?_, by decide, fun X hs => ?_⟩
            · conv_lhs => rw [hL, hL1]
              simp
            · rw [show l.takeWhile jsonWs ++ '{' :: (rest1.takeWhile jsonWs ++ ['}'])
                  = (l.takeWhile jsonWs ++ '{' :: rest1.takeWhile jsonWs) ++ ['}'] by simp]
              exact getLast?_append_right rfl
            · simp only [List.append_assoc, List.cons_append, List.nil_append]
              simp only [parseValue]
              rw [skipWs_append_all ws_take_mem, skipWs_cons_neg _ hcw]
              dsimp only []
              rw [if_pos rfl, skipWs_append_all ws_take_mem, skipWs_cons_neg _ (by decide)]
              simp
          · -- members
            rename_i hnot
            rcases hsk2 : skipWs rest1 with _ | ⟨c2, r2⟩
            · rw [hsk2] at h
              obtain ⟨e, he⟩ := parseMembers_nil fuel []
              rw [he] at h
              simp [Except.map] at h
            · have hne2 : c2 ≠ '}' := by
                intro e
                subst e
                exact hnot r2 hsk2
              have hcw2 : jsonWs c2 = false := skipWs_head_not_ws hsk2
              rw [hsk2] at h
              rcases hpm : parseMembers fuel (c2 :: r2) [] with e | ⟨es, r3⟩
              · rw [hpm] at h
                simp [Except.map] at h
              · rw [hpm] at h
                simp only [Except.map, Except.ok.injEq, Prod.mk.injEq] at h
                obtain ⟨hv, hr⟩ := h
                subst hv
                subst hr
                obtain ⟨mM, hM1, hM2, hM3⟩ := ihM _ _ _ _ hpm
                have hMne : mM ≠ [] := by
                  intro e
                  rw [e] at hM2
                  cases hM2
                have hMh : mM.head? = some c2 := by
                  rw [head?_of_front (⟨r3, hM1.symm⟩ : mM <+: c2 :: r2) hMne]
                  rfl
                have hL1 : rest1 = rest1.takeWhile jsonWs ++ (c2 :: r2) := by
                  have h0 := skipWs_split rest1
                  rw [hsk2] at h0
                  exact h0
                refine ⟨l.takeWhile jsonWs ++ '{' :: (rest1.takeWhile jsonWs ++ mM), '}',
                  ?_, ?_, by decide, fun X hs => ?_⟩
                · conv_lhs => rw [hL, hL1, hM1]
                  simp
                · rw [show l.takeWhile jsonWs ++ '{' :: (rest1.takeWhile jsonWs ++ mM)
                      = (l.takeWhile jsonWs ++ '{' :: rest1.takeWhile jsonWs) ++ mM
                      by simp]
                  exact getLast?_append_right hM2
                · have hfront := head?_of_front (⟨X, rfl⟩ : mM <+: mM ++ X) hMne
                  have hh : ∀ a, (mM ++ X).head? = some a → jsonWs a = false := by
                    intro a ha
                    rw [← hfront, hMh] at ha
                    obtain rfl := Option.some.inj ha
                    exact hcw2
                  simp only [List.append_assoc, List.cons_append]
                  simp only [parseValue]
                  rw [skipWs_append_all ws_take_mem, skipWs_cons_neg _ hcw]
                  dsimp only []
                  rw [if_pos rfl, skipWs_append_all ws_take_mem,
                    show skipWs (mM ++ X) = mM ++ X from dropWhile_eq_self_of_head? hh]
                  split
                  · rename_i r heq4
                    exfalso
                    have hx : (mM ++ X).head? = some c2 := by
                      rw [← hfront]
                      exact hMh
                    rw [heq4] at hx
                    exact hne2 (Option.some.inj hx).symm
                  · rw [hM3 X]
                    simp [Except.map]
        · -- c = '['
          subst h2
          split at h
          · -- empty array
            rename_i r heq2
            simp only [Except.ok.injEq, Prod.mk.injEq] at h
            obtain ⟨hv, hr⟩ := h
            subst hv
            subst hr
            have hL1 : rest1 = rest1.takeWhile jsonWs ++ (']' :: r) := by
              have h0 := skipWs_split rest1
              rw [heq2] at h0
              exact h0
            refine ⟨l.takeWhile jsonWs ++ '[' :: (rest1.takeWhile jsonWs ++ [']']), ']',
              ?_, ?_, by decide, fun X hs => ?_⟩
            · conv_lhs => rw [hL, hL1]
              simp
            · rw [show l.takeWhile jsonWs ++ '[' :: (rest1.takeWhile jsonWs ++ [']'])
                  = (l.takeWhile jsonWs ++ '[' :: rest1.takeWhile jsonWs) ++ [']'] by simp]
              exact getLast?_append_right rfl
            · simp only [List.append_assoc, List.cons_append, List.nil_append]
              simp only [parseValue]
              rw [skipWs_append_all ws_take_mem, skipWs_cons_neg _ hcw]
              dsimp only []
              rw [if_neg h1, if_pos rfl, skipWs_append_all ws_take_mem,
                skipWs_cons_neg _ (by decide)]
              simp
          · -- elements
            rename_i hnot
            rcases hsk2 : skipWs rest1 with _ | ⟨c2, r2⟩
            · rw [hsk2] at h
              obtain ⟨e, he⟩ := parseElements_nil fuel
              rw [he] at h
              simp [Except.map] at h
            · have hne2 : c2 ≠ ']' := by
                intro e
                subst e
                exact hnot r2 hsk2
              have hcw2 : jsonWs c2 = false := skipWs_head_not_ws hsk2
              rw [hsk2] at h
              rcases hpe : parseElements fuel (c2 :: r2) with e | ⟨vs, r3⟩
              · rw [hpe] at h
                simp [Except.map] at h
              · rw [hpe] at h
                simp only [Except.map, Except.ok.injEq, Prod.mk.injEq] at h
                obtain ⟨hv, hr⟩ := h
                subst hv
                subst hr
                obtain ⟨mE, hM1, hM2, hM3⟩ := ihE _ _ _ hpe
                have hMne : mE ≠ [] := by
                  intro e
                  rw [e] at hM2
                  cases hM2
                have hMh : mE.head? = some c2 := by
                  rw [head?_of_front (⟨r3, hM1.symm⟩ : mE <+: c2 :: r2) hMne]
                  rfl
                have hL1 : rest1 = rest1.takeWhile jsonWs ++ (c2 :: r2) := by
                  have h0 := skipWs_split rest1
                  rw [hsk2] at h0
                  exact h0
                refine ⟨l.takeWhile jsonWs ++ '[' :: (rest1.takeWhile jsonWs ++ mE), ']',
                  ?_, ?_, by decide, fun X hs => ?_⟩
                · conv_lhs => rw [hL, hL1, hM1]
                  simp
                · rw [show l.takeWhile jsonWs ++ '[' :: (rest1.takeWhile jsonWs ++ mE)
                      = (l.takeWhile jsonWs ++ '[' :: rest1.takeWhile jsonWs) ++ mE
                      by simp]
                  exact getLast?_append_right hM2
                · have hfront := head?_of_front (⟨X, rfl⟩ : mE <+: mE ++ X) hMne
                  have hh : ∀ a, (mE ++ X).head? = some a → jsonWs a = false := by
                    intro a ha
                    rw [← hfront, hMh] at ha
                    obtain rfl := Option.some.inj ha
                    exact hcw2
                  simp only [List.append_assoc, List.cons_append]
                  simp only [parseValue]
                  rw [skipWs_append_all ws_take_mem, skipWs_cons_neg _ hcw]
                  dsimp only []
                  rw [if_neg h1, if_pos rfl, skipWs_append_all ws_take_mem,
                    show skipWs (mE ++ X) = mE ++ X from dropWhile_eq_self_of_head? hh]
                  split
                  · rename_i r heq4
                    exfalso
                    have hx : (mE ++ X).head? = some c2 := by
                      rw [← hfront]
                      exact hMh
                    rw [heq4] at hx
                    exact hne2 (Option.some.inj hx).symm
                  · rw [hM3 X]
                    simp [Except.map]
        · -- c = the double quote: a string
          subst h3
          rcases hsb : strBody [] rest1 with e | ⟨sstr, r2⟩
          · rw [hsb] at h
            simp [Except.map] at h
          · rw [hsb] at h
            simp only [Except.map, Except.ok.injEq, Prod.mk.injEq] at h
            obtain ⟨hv, hr⟩ := h
            subst hv
            subst hr
            obtain ⟨mB, hB1, hB2, hB3⟩ := strBody_extend rest1.length rest1 le_rfl _ _ _ hsb
            refine ⟨l.takeWhile jsonWs ++ dqc :: mB, dqc, ?_, ?_, by decide,
              fun X hs => ?_⟩
            · conv_lhs => rw [hL, hB1]
              simp
            · rw [show l.takeWhile jsonWs ++ dqc :: mB
                  = (l.takeWhile jsonWs ++ [dqc]) ++ mB by simp]
              exact getLast?_append_right hB2
            · simp only [List.append_assoc, List.cons_append]
              simp only [parseValue]
              rw [skipWs_append_all ws_take_mem, skipWs_cons_neg _ hcw]
              dsimp only []
              rw [if_neg h1, if_neg h2, if_pos rfl, hB3 X]
              simp [Except.map]
        · -- the literal true
          subst h4
          split at h
          · rename_i r
            simp only [Except.ok.injEq, Prod.mk.injEq] at h
            obtain ⟨hv, hr⟩ := h
            subst hv
            subst hr
            refine ⟨l.takeWhile jsonWs ++ ['t', 'r', 'u', 'e'], 'e', ?_, ?_, by decide,
              fun X hs => ?_⟩
            · conv_lhs => rw [hL]
              simp
            · rw [show l.takeWhile jsonWs ++ ['t', 'r', 'u', 'e']
                  = (l.takeWhile jsonWs ++ ['t', 'r', 'u']) ++ ['e'] by simp]
              exact getLast?_append_right rfl
            · simp only [List.append_assoc, List.cons_append, List.nil_append]
              simp only [parseValue]
              rw [skipWs_append_all ws_take_mem, skipWs_cons_neg _ hcw]
              dsimp only []
              rw [if_neg h1, if_neg h2, if_neg h3, if_pos rfl]
              simp
          · exact absurd h (by simp)
        · -- the literal false
          subst h5
          split at h
          · rename_i r
            simp only [Except.ok.injEq, Prod.mk.injEq] at h
            obtain ⟨hv, hr⟩ := h
            subst hv
            subst hr
            refine ⟨l.takeWhile jsonWs ++ ['f', 'a', 'l', 's', 'e'], 'e', ?_, ?_,
              by decide, fun X hs => ?_⟩
            · conv_lhs => rw [hL]
              simp
            · rw [show l.takeWhile jsonWs ++ ['f', 'a', 'l', 's', 'e']
                  = (l.takeWhile jsonWs ++ ['f', 'a', 'l', 's']) ++ ['e'] by simp]
              exact getLast?_append_right rfl
            · simp only [List.append_assoc, List.cons_append, List.nil_append]
              simp only [parseValue]
              rw [skipWs_append_all ws_take_mem, skipWs_cons_neg _ hcw]
              dsimp only []
              rw [if_neg h1, if_neg h2, if_neg h3, if_neg h4, if_pos rfl]
              simp
          · exact absurd h (by simp)
        · -- the literal null
          subst h6
          split at h
          · rename_i r
            simp only [Except.ok.injEq, Prod.mk.injEq] at h
            obtain ⟨hv, hr⟩ := h
            subst hv
            subst hr
            refine ⟨l.takeWhile jsonWs ++ ['n', 'u', 'l', 'l'], 'l', ?_, ?_, by decide,
              fun X hs => ?_⟩
            · conv_lhs => rw [hL]
              simp
            · rw [show l.takeWhile jsonWs ++ ['n', 'u', 'l', 'l']
                  = (l.takeWhile jsonWs ++ ['n', 'u', 'l']) ++ ['l'] by simp]
              exact getLast?_append_right rfl
            · simp only [List.append_assoc, List.cons_append, List.nil_append]
              simp only [parseValue]
              rw [skipWs_append_all ws_take_mem, skipWs_cons_neg _ hcw]
              dsimp only []
              rw [if_neg h1, if_neg h2, if_neg h3, if_neg h4, if_neg h5, if_pos rfl]
              simp
          · exact absurd h (by simp)
        · -- a number
          obtain ⟨mN, lcN, hN1, hN2, hN3, hN4⟩ := numToken_extend h
          have hNne : mN ≠ [] := by
            intro e
            rw [e] at hN2
            cases hN2
          have hNh : mN.head? = some c := by
            rw [head?_of_front (⟨rest, hN1.symm⟩ : mN <+: c :: rest1) hNne]
            rfl
          rcases mN with _ | ⟨mh, mt⟩
          · exact absurd rfl hNne
          · obtain rfl : c = mh := by simpa using hNh.symm
            refine ⟨l.takeWhile jsonWs ++ c :: mt, lcN, ?_, ?_, ?_, fun X hs => ?_⟩
            · conv_lhs => rw [hL, hN1]
              simp
            · exact getLast?_append_right hN2
            · obtain ⟨d1, d2⟩ := digit_range hN3
              exact jsWs_eq_false_of_range (by omega) (by omega)
            · simp only [List.append_assoc, List.cons_append]
              simp only [parseValue]
              rw [skipWs_append_all ws_take_mem, skipWs_cons_neg _ hcw]
              dsimp only []
              rw [if_neg h1, if_neg h2, if_neg h3, if_neg h4, if_neg h5, if_neg h6,
                if_pos h7, ← List.cons_append]
              exact hN4 X hs
    · -- parseMembers
      simp only [parseMembers] at h
      split at h
      · rename_i c r heq
        have hL : l = l.takeWhile jsonWs ++ (c :: r) := by
          have h0 := skipWs_split l
          rw [heq] at h0
          exact h0
        have hcw : jsonWs c = false := skipWs_head_not_ws heq
        split_ifs at h with hdq
        subst hdq
        split at h
        · exact absurd h (by simp)
        · rename_i k r1 heqB
          obtain ⟨mB, hB1, hB2, hB3⟩ := strBody_extend r.length r le_rfl _ _ _ heqB
          split at h
          · rename_i r2 heq2
            have hL1 : r1 = r1.takeWhile jsonWs ++ (':' :: r2) := by
              have h0 := skipWs_split r1
              rw [heq2] at h0
              exact h0
            split at h
            · exact absurd h (by simp)
            · rename_i v2 r3 heqV
              obtain ⟨mV, lc2, hV1, hV2, hV3, hV4⟩ := ihV _ _ _ heqV
              split at h
              · -- a comma: recurse
                rename_i r4 heq3
                have hL2 : r3 = r3.takeWhile jsonWs ++ (',' :: r4) := by
                  have h0 := skipWs_split r3
                  rw [heq3] at h0
                  exact h0
                obtain ⟨mM2, hM1, hM2, hM3⟩ := ihM _ _ _ _ h
                refine ⟨l.takeWhile jsonWs ++ dqc :: (mB ++ (r1.takeWhile jsonWs ++
                  ':' :: (mV ++ (r3.takeWhile jsonWs ++ ',' :: mM2)))), ?_, ?_,
                  fun X => ?_⟩
                · conv_lhs => rw [hL, hB1, hL1, hV1, hL2, hM1]
                  simp
                · rw [show l.takeWhile jsonWs ++ dqc :: (mB ++ (r1.takeWhile jsonWs ++
                      ':' :: (mV ++ (r3.takeWhile jsonWs ++ ',' :: mM2))))
                      = (l.takeWhile jsonWs ++ dqc :: (mB ++ (r1.takeWhile jsonWs ++
                        ':' :: (mV ++ (r3.takeWhile jsonWs ++ [','])))) ) ++ mM2
                      by simp]
                  exact getLast?_append_right hM2
                · simp only [List.append_assoc, List.cons_append]
                  simp only [parseMembers]
                  rw [skipWs_append_all ws_take_mem, skipWs_cons_neg _ hcw]
                  dsimp only []
                  rw [if_pos rfl,
                    hB3 (r1.takeWhile jsonWs ++ ':' :: (mV ++ (r3.takeWhile jsonWs ++
                      ',' :: (mM2 ++ X))))]
                  dsimp only []
                  rw [skipWs_append_all ws_take_mem, skipWs_cons_neg _ (by decide)]
                  simp only []
                  rw [hV4 (r3.takeWhile jsonWs ++ ',' :: (mM2 ++ X))
                    (safe_ws_comma ws_take_mem (Or.inl rfl))]
                  simp only []
                  rw [skipWs_append_all ws_take_mem, skipWs_cons_neg _ (by decide)]
                  simp only []
                  exact hM3 X
              · -- a closing brace: done
                rename_i r4 heq3
                simp only [Except.ok.injEq, Prod.mk.injEq] at h
                obtain ⟨hv, hr⟩ := h
                subst hv
                subst hr
                have hL2 : r3 = r3.takeWhile jsonWs ++ ('}' :: r4) := by
                  have h0 := skipWs_split r3
                  rw [heq3] at h0
                  exact h0
                refine ⟨l.takeWhile jsonWs ++ dqc :: (mB ++ (r1.takeWhile jsonWs ++
                  ':' :: (mV ++ (r3.takeWhile jsonWs ++ ['}'])))), ?_, ?_, fun X => ?_⟩
                · conv_lhs => rw [hL, hB1, hL1, hV1, hL2]
                  simp
                · rw [show l.takeWhile jsonWs ++ dqc :: (mB ++ (r1.takeWhile jsonWs ++
                      ':' :: (mV ++ (r3.takeWhile jsonWs ++ ['}']))))
                      = (l.takeWhile jsonWs ++ dqc :: (mB ++ (r1.takeWhile jsonWs ++
                        ':' :: (mV ++ r3.takeWhile jsonWs)))) ++ ['}'] by simp]
                  exact getLast?_append_right rfl
                · simp only [List.append_assoc, List.cons_append, List.nil_append]
                  simp only [parseMembers]
                  rw [skipWs_append_all ws_take_mem, skipWs_cons_neg _ hcw]
                  dsimp only []
                  rw [if_pos rfl,
                    hB3 (r1.takeWhile jsonWs ++ ':' :: (mV ++ (r3.takeWhile jsonWs ++
                      '}' :: X)))]
                  dsimp only []
                  rw [skipWs_append_all ws_take_mem, skipWs_cons_neg _ (by decide)]
                  simp only []
                  rw [hV4 (r3.takeWhile jsonWs ++ '}' :: X)
                    (safe_ws_comma ws_take_mem (Or.inr (Or.inl rfl)))]
                  simp only []
                  rw [skipWs_append_all ws_take_mem, skipWs_cons_neg _ (by decide)]
                  simp only []
              · exact absurd h (by simp)
          · exact absurd h (by simp)
      · exact absurd h (by simp)
    · -- parseElements
      simp only [parseElements] at h
      split at h
      · exact absurd h (by simp)
      · rename_i v r heqV
        obtain ⟨mV, lc2, hV1, hV2, hV3, hV4⟩ := ihV _ _ _ heqV
        split at h
        · -- a comma: recurse
          rename_i r2 heq2
          have hL1 : r = r.takeWhile jsonWs ++ (',' :: r2) := by
            have h0 := skipWs_split r
            rw [heq2] at h0
            exact h0
          rcases hpe : parseElements fuel r2 with e | ⟨vs2, r3⟩
          · rw [hpe] at h
            simp [Except.map] at h
          · rw [hpe] at h
            simp only [Except.map, Except.ok.injEq, Prod.mk.injEq] at h
            obtain ⟨hv, hr⟩ := h
            subst hv
            subst hr
            obtain ⟨mE2, hM1, hM2, hM3⟩ := ihE _ _ _ hpe
            refine ⟨mV ++ (r.takeWhile jsonWs ++ ',' :: mE2), ?_, ?_, fun X => ?_⟩
            · conv_lhs => rw [hV1, hL1, hM1]
              simp
            · rw [show mV ++ (r.takeWhile jsonWs ++ ',' :: mE2)
                  = (mV ++ (r.takeWhile jsonWs ++ [','])) ++ mE2 by simp]
              exact getLast?_append_right hM2
            · simp only [List.append_assoc, List.cons_append]
              simp only [parseElements]
              rw [hV4 (r.takeWhile jsonWs ++ ',' :: (mE2 ++ X))
                (safe_ws_comma ws_take_mem (Or.inl rfl))]
              dsimp only []
              rw [skipWs_append_all ws_take_mem, skipWs_cons_neg _ (by decide)]
              simp only []
              rw [hM3 X]
              simp [Except.map]
        · -- a closing bracket: done
          rename_i r2 heq2
          simp only [Except.ok.injEq, Prod.mk.injEq] at h
          obtain ⟨hv, hr⟩ := h
          subst hv
          subst hr
          have hL1 : r = r.takeWhile jsonWs ++ (']' :: r2) := by
            have h0 := skipWs_split r
            rw [heq2] at h0
            exact h0
          refine ⟨mV ++ (r.takeWhile jsonWs ++ [']']), ?_, ?_, fun X => ?_⟩
          · conv_lhs => rw [hV1, hL1]
            simp
          · rw [show mV ++ (r.takeWhile jsonWs ++ [']'])
                = (mV ++ r.takeWhile jsonWs) ++ [']'] by simp]
            exact getLast?_append_right rfl
          · simp only [List.append_assoc, List.cons_append, List.nil_append]
            simp only [parseElements]
            rw [hV4 (r.takeWhile jsonWs ++ ']' :: X)
              (safe_ws_comma ws_take_mem (Or.inr (Or.inr (Or.inl rfl))))]
            dsimp only []
            rw [skipWs_append_all ws_take_mem, skipWs_cons_neg _ (by decide)]
            simp only []
        · exact absurd h (by simp)

/-- A successful parse dispatches on a non-whitespace character: the head
left after skipping blanks is a brace, bracket, quote, literal start,
minus sign or digit, none of which is JavaScript whitespace. -/
theorem parseValue_head_not_ws {fuel : Nat} {x : List Char} {v : JSONValue}
    {r : List Char} (h : parseValue fuel x = .ok (v, r)) :
    ∃ c cs, skipWs x = c :: cs ∧ jsWs c = false := by
  cases fuel with
  | zero => exact absurd h (by simp [parseValue])
  | succ fuel =>
    simp only [parseValue] at h
    split at h
    · exact absurd h (by simp)
    · rename_i c cs heq
      refine ⟨c, cs, heq, ?_⟩
      split_ifs at h with h1 h2 h3 h4 h5 h6 h7
      · subst h1
        decide
      · subst h2
        decide
      · subst h3
        decide
      · subst h4
        decide
      · subst h5
        decide
      · subst h6
        decide
      · rcases h7 with h7 | h7
        · subst h7
          decide
        · obtain ⟨d1, d2⟩ := digit_range h7
          exact jsWs_eq_false_of_range (by omega) (by omega)

/-- The value parser only sees its input through `skipWs`. -/
theorem parseValue_congr_skipWs {fuel : Nat} (hf : 0 < fuel) {x y : List Char}
    (hxy : skipWs x = skipWs y) : parseValue fuel x = parseValue fuel y := by
  cases fuel with
  | zero => exact absurd hf (by omega)
  | succ n => simp only [parseValue, hxy]

/-- A text the strict decoder accepts is still accepted, with the same
value, after JavaScript trimming: the surrounding whitespace the decoder
skipped is JSON whitespace, the value text starts and ends in non-blank
characters, so `jsTrim` removes exactly that padding, and the decoder's
fuel is invariant under trimming by construction. -/
theorem decode_jsTrim {s : String} {v : JSONValue} (hd : decode s = .ok v) :
    decode (jsTrim s) = .ok v := by
  rcases hpv : parseValue (2 * (jsTrim s).data.length + 2) s.data with e | ⟨v2, rest⟩
  · rw [decode, hpv] at hd
    exact absurd hd (by simp)
  · have hws : skipWs rest = [] := by
      by_cases hq : skipWs rest = []
      · exact hq
      · rw [decode, hpv] at hd
        simp [hq] at hd
    have hv2 : v2 = v := by
      rw [decode, hpv] at hd
      simp [hws] at hd
      exact hd
    subst hv2
    obtain ⟨m, lc, hml, hlast, hlc, hpad⟩ := (parse_extend _).1 _ _ _ hpv
    have hm0 : parseValue (2 * (jsTrim s).data.length + 2) m = .ok (v2, []) := by
      have h0 := hpad [] safeAfter_nil
      rwa [List.append_nil] at h0
    obtain ⟨c0, cs0, hsk, hc0w⟩ := parseValue_head_not_ws hm0
    have hc0j : jsonWs c0 = false := jsonWs_eq_false_of_jsWs hc0w
    have hqws : ∀ x ∈ rest, jsonWs x = true := List.dropWhile_eq_nil_iff.mp hws
    have hms : m = m.takeWhile jsonWs ++ (c0 :: cs0) := by
      have h0 := skipWs_split m
      rw [hsk] at h0
      exact h0
    have hchne : (c0 :: cs0) ≠ ([] : List Char) := List.cons_ne_nil _ _
    have hcore_last : (c0 :: cs0).getLast? = some lc := by
      have h0 : m.getLast? = (c0 :: cs0).getLast? := by
        rw [hms, List.getLast?_append, List.getLast?_eq_getLast _ hchne]
        rfl
      rw [← h0, hlast]
    have htrim : (jsTrim s).data = c0 :: cs0 := by
      rw [jsTrim_data]
      have h1 : s.data.dropWhile jsWs = (c0 :: cs0) ++ rest := by
        rw [hml, hms]
        rw [show (m.takeWhile jsonWs ++ (c0 :: cs0)) ++ rest
            = m.takeWhile jsonWs ++ ((c0 :: cs0) ++ rest) by simp]
        rw [List.dropWhile_append_of_pos (fun x hx => jsWs_of_jsonWs (ws_take_mem x hx))]
        exact List.dropWhile_cons_of_neg (by simp [hc0w])
      rw [h1]
      exact rdropWhile_append_ws (fun x hx => jsWs_of_jsonWs (hqws x hx)) hcore_last hlc
    have hflen : (jsTrim s).data.length = (c0 :: cs0).length := by rw [htrim]
    have hskc : skipWs (c0 :: cs0) = skipWs m := by
      rw [skipWs_cons_neg _ hc0j, hsk]
    have hpv2 : parseValue (2 * (c0 :: cs0).length + 2) (c0 :: cs0) = .ok (v2, []) := by
      rw [show 2 * (c0 :: cs0).length + 2 = 2 * (jsTrim s).data.length + 2 by
          rw [hflen],
        parseValue_congr_skipWs (by omega) hskc]
      exact hm0
    rw [decode, jsTrim_idem, htrim, hpv2]
    simp [skipWs]

/-- Claim C1 (amended): for every valid strict-JSON text given as string
input with no key name, on whose trimmed text (the candidate the pipeline
normalizes) the Normalizer acts as the identity, extraction returns the
value obtained by decoding that same text directly with the strict
decoder.  The text may carry leading or trailing whitespace: the decoder
tolerates the padding and trimming removes exactly it (`decode_jsTrim`).
(The unrestricted claim is false: see the counterexample, the
Normalizer's regex passes can rewrite string bodies of already-valid
JSON.) -/
theorem extract_eq_direct_decode (s : String) (v : JSONValue)
    (hn : normalizeToJSON (jsTrim s) = jsTrim s) (hd : decode s = .ok v) :
    extractAndParse s = .ok (some v) ∧ parseJSON (.str s) none = .ok (some v) := by
  have hdt : decode (jsTrim s) = .ok v := decode_jsTrim hd
  have hlk : looksLikeJSON (jsTrim s) = true :=
    looksLikeJSON_of_decode (jsTrim_idem s) hdt
  have h1 : extractAndParse s = (decode (normalizeToJSON (jsTrim s))).map some :=
    extractAndParse_of_looksLike hlk
  rw [hn, hdt] at h1
  simp only [Except.map] at h1
  refine ⟨h1, ?_⟩
  have h2 : extractAndParse (jsTrim s)
      = (decode (normalizeToJSON (jsTrim (jsTrim s)))).map some :=
    extractAndParse_of_looksLike (by rw [jsTrim_idem]; exact hlk)
  rw [jsTrim_idem, hn, hdt] at h2
  simp only [Except.map] at h2
  simp [parseJSON, h2]

/-- Witness for the claim C1 theorem at a padded input: [1, 2] followed by
a newline is valid JSON text that is not equal to its own trim, the
Normalizer fixes the trimmed text, and extraction returns the direct
decoding of the padded text. -/
theorem extract_eq_direct_decode_witness :
    extractAndParse "[1, 2]\n" = .ok (some (.arr [.num 1, .num 2])) ∧
    parseJSON (.str "[1, 2]\n") none = .ok (some (.arr [.num 1, .num 2])) :=
  extract_eq_direct_decode "[1, 2]\n" (.arr [.num 1, .num 2]) rfl rfl

/-- Counterexample to claim C1 as stated: the valid strict-JSON text
consisting of the string literal ",\x7d" (a quote, a comma, a closing
brace, a quote) decodes directly to the string ",\x7d", but the
Normalizer's trailing-comma pass deletes the comma inside the string body,
so extraction returns the string "\x7d": normalization does change
already-valid JSON and extraction differs from direct decoding. -/
theorem extract_ne_direct_decode :
    decode "\x22,\x7d\x22" = .ok (.str ",\x7d") ∧
    jsTrim "\x22,\x7d\x22" = "\x22,\x7d\x22" ∧
    normalizeToJSON "\x22,\x7d\x22" = "\x22\x7d\x22" ∧
    extractAndParse "\x22,\x7d\x22" = .ok (some (.str "\x7d")) ∧
    JSONValue.str ",\x7d" ≠ JSONValue.str "\x7d" := by
  refine ⟨rfl, rfl, rfl, rfl, ?_⟩
  intro h
  injection h with h2
  exact absurd h2 (by decide)

end PJson
